import Mathlib

/-!
Verification development for the SyncFlow deals curator
(`syncflow_deals_scraper_improved.py`).

The Python source is shallowly embedded: every pure helper of the script
becomes an executable Lean function on `List Char` / `String`, the mutable
curation state (`deals`, `seen_asins`, `seen_titles`, `category_counts`)
becomes an explicit `CurationState` threaded through a step function, and
the wall clock (`time.time()`) becomes an explicit `clock : Nat → Int`
parameter giving the value read at the n-th acceptance.

Python library primitives that the script calls (`re` on the five concrete
patterns of the script, `difflib.SequenceMatcher`, `urllib.parse`,
BeautifulSoup's first-`<img>` lookup, `str.strip/lower`, `float`) are
modelled directly, restricted to ASCII text and to the shapes that occur;
each model's doc comment states the restriction.
-/

namespace SyncFlow

/-- Python whitespace for `str.strip` and the regex class `\s`
(ASCII: space, tab, newline, carriage return, vertical tab, form feed). -/
def isPySpace (c : Char) : Bool :=
  c == ' ' || c == '\t' || c == '\n' || c == '\r' ||
  c == Char.ofNat 11 || c == Char.ofNat 12

/-- ASCII lowercasing, models `str.lower` on the ASCII titles handled here. -/
def toLowerL (l : List Char) : List Char :=
  l.map Char.toLower

/-- Models Python `str.strip()`: drop whitespace from both ends. -/
def pyStrip (l : List Char) : List Char :=
  ((l.dropWhile isPySpace).reverse.dropWhile isPySpace).reverse

/-- `startsWithL pre l`: `l` begins with `pre`. -/
def startsWithL : List Char → List Char → Bool
  | [], _ => true
  | _ :: _, [] => false
  | p :: ps, c :: cs => p == c && startsWithL ps cs

/-- `hasSubL sub l`: `sub` occurs contiguously in `l`; models Python `sub in l`. -/
def hasSubL (sub : List Char) : List Char → Bool
  | [] => sub.isEmpty
  | c :: cs => startsWithL sub (c :: cs) || hasSubL sub cs

/-- Value of a decimal digit string, models `int` on the digit runs found by the
discount regex. -/
def natOfDigits (l : List Char) : Nat :=
  l.foldl (fun n c => 10 * n + (c.toNat - 48)) 0

/-! ## Field extraction (the regex helpers of the script) -/

/-- The literal prefix of `AMAZON_LINK_REGEX = (https://www\.amazon\.com/[^\s"<]+)`. -/
def amazonUrlPre : List Char := "https://www.amazon.com/".toList

/-- Character class `[^\s"<]` of `AMAZON_LINK_REGEX`. -/
def isUrlChar (c : Char) : Bool :=
  !(isPySpace c || c == '"' || c == '<')

/-- Leftmost match of `AMAZON_LINK_REGEX` in a text: at each position try the
literal prefix followed by a maximal nonempty run of `[^\s"<]` characters;
models `re.search` scanning positions left to right. -/
def findAmazonUrlL : List Char → Option (List Char)
  | [] => none
  | c :: cs =>
    if startsWithL amazonUrlPre (c :: cs) then
      let rest := (c :: cs).drop amazonUrlPre.length
      let run := rest.takeWhile isUrlChar
      if run.isEmpty then findAmazonUrlL cs else some (amazonUrlPre ++ run)
    else findAmazonUrlL cs

/-- Models `extract_amazon_url(summary, fallback)`: use the fallback link
verbatim when it contains `"amazon.com"`, else search the summary. -/
def extract_amazon_url (summary fallback : String) : Option String :=
  if hasSubL "amazon.com".toList fallback.toList then some fallback
  else (findAmazonUrlL summary.toList).map String.mk

/-- Character class `[A-Z0-9]` of `ASIN_REGEX`. -/
def isAsinChar (c : Char) : Bool :=
  (65 ≤ c.toNat && c.toNat ≤ 90) || c.isDigit

/-- Leftmost match of `ASIN_REGEX = ([A-Z0-9]{10})`: the first position at which
ten consecutive class characters start. -/
def asinScan : List Char → Option String
  | [] => none
  | c :: cs =>
    let first10 := (c :: cs).take 10
    if first10.length == 10 && first10.all isAsinChar then some (String.mk first10)
    else asinScan cs

/-- Models `extract_asin(url)`. -/
def extract_asin (url : String) : Option String :=
  asinScan url.toList

/-- Leftmost match of `PRICE_REGEX = (\$[0-9]+(?:\.[0-9]{1,2})?)`: a `$`,
a maximal nonempty digit run, then optionally `.` and one or two digits
(two when available, per greedy `{1,2}`). -/
def priceScan : List Char → Option String
  | [] => none
  | c :: cs =>
    if c == '$' then
      let ds := cs.takeWhile Char.isDigit
      if ds.isEmpty then priceScan cs
      else
        match cs.drop ds.length with
        | '.' :: rest2 =>
          let fs := (rest2.takeWhile Char.isDigit).take 2
          if fs.isEmpty then some (String.mk ('$' :: ds))
          else some (String.mk ('$' :: ds ++ '.' :: fs))
        | _ => some (String.mk ('$' :: ds))
    else priceScan cs

/-- Models `extract_price_from_title(title)`. -/
def extract_price_from_title (title : String) : Option String :=
  priceScan title.toList

/-- Leftmost match of `DISCOUNT_REGEX = (\d+)%`: the first maximal digit run
immediately followed by `%` (positions inside a run not followed by `%`
fail the same way, so skipping is equivalent to `re.search`'s scan). -/
def discountScan : List Char → Option Nat
  | [] => none
  | c :: cs =>
    if c.isDigit then
      let run := (c :: cs).takeWhile Char.isDigit
      match (c :: cs).drop run.length with
      | '%' :: _ => some (natOfDigits run)
      | _ => discountScan cs
    else discountScan cs

/-- Models `extract_discount_from_title(title)`: matched percentage, default 0. -/
def extract_discount_from_title (title : String) : Nat :=
  (discountScan title.toList).getD 0

/-- Within the attribute region of an `img` tag, find a `src="value"`
attribute.  The attribute name must follow an attribute separator
(whitespace), so a `data-src="..."` attribute does not match, just as
`img.get("src")` distinguishes the two.  An empty value yields `none`,
mirroring the script's `img.get("src")` truthiness test.  Models the
whitespace-separated, double-quoted attribute form produced by feed HTML. -/
def srcIn : List Char → Option (List Char)
  | [] => none
  | c :: cs =>
    if isPySpace c && startsWithL "src=\"".toList cs then
      let v := (cs.drop 5).takeWhile (fun x => !(x == '"'))
      if v.isEmpty then none else some v
    else srcIn cs

/-- Models `BeautifulSoup(summary).find("img")` followed by the `src` lookup,
for plain well-formed lowercase HTML: the first `<img` tag (name followed by a
boundary character) is located and its `src="..."` attribute read from the
region before the closing `>`. -/
def findImgSrc : List Char → Option (List Char)
  | [] => none
  | c :: cs =>
    if startsWithL "<img".toList (c :: cs) then
      let rest := (c :: cs).drop 4
      match rest with
      | [] => findImgSrc cs
      | b :: _ =>
        if isPySpace b || b == '/' || b == '>' then
          srcIn (rest.takeWhile (fun x => !(x == '>')))
        else findImgSrc cs
    else findImgSrc cs

/-- Models `extract_image_from_summary(summary)`. -/
def extract_image_from_summary (summary : String) : Option String :=
  (findImgSrc summary.toList).map String.mk

/-- Models `amazon_image_from_asin(asin)`: `None` for a falsy (empty) ASIN,
else the fixed image-host template around the ASIN. -/
def amazon_image_from_asin (asin : String) : Option String :=
  if asin = "" then none
  else some ("https://m.media-amazon.com/images/I/" ++ asin ++ "._AC_SL1500_.jpg")

/-! ## Title cleaning (`clean_title`) -/

/-- After an opening `[`, scan to the first `]` (lazy `.*?`, where `.` does not
cross a newline); return the remainder after the `]`. -/
def scanCloseBracket : List Char → Option (List Char)
  | [] => none
  | c :: cs =>
    if c == ']' then some cs
    else if c == '\n' then none
    else scanCloseBracket cs

/-- Models `re.sub(r'\[.*?\]', '', title)`: remove every non-overlapping
leftmost-shortest bracketed run. Fuelled to keep the recursion structural;
each step consumes at least one character, so fuel `length + 1` is exact. -/
def rmBracketsF : Nat → List Char → List Char
  | 0, l => l
  | _, [] => []
  | fuel + 1, c :: cs =>
    if c == '[' then
      match scanCloseBracket cs with
      | some rest => rmBracketsF fuel rest
      | none => c :: rmBracketsF fuel cs
    else c :: rmBracketsF fuel cs

/-- After an opening `(`, try to match `\s*\d+%\s*OFF\s*\)` case-insensitively;
return the remainder after the `)` on success. -/
def parseDiscountParen (l : List Char) : Option (List Char) :=
  let l1 := l.dropWhile isPySpace
  let ds := l1.takeWhile Char.isDigit
  if ds.isEmpty then none
  else
    match l1.drop ds.length with
    | '%' :: l2 =>
      let l3 := l2.dropWhile isPySpace
      if toLowerL (l3.take 3) == "off".toList then
        match (l3.drop 3).dropWhile isPySpace with
        | ')' :: rest => some rest
        | _ => none
      else none
    | _ => none

/-- Models `re.sub(r'\(\s*\d+%\s*OFF\s*\)', '', title, flags=re.IGNORECASE)`. -/
def rmParenOffF : Nat → List Char → List Char
  | 0, l => l
  | _, [] => []
  | fuel + 1, c :: cs =>
    if c == '(' then
      match parseDiscountParen cs with
      | some rest => rmParenOffF fuel rest
      | none => c :: rmParenOffF fuel cs
    else c :: rmParenOffF fuel cs

/-- Match of `-\s*\$\d+(\.\d{2})?$` spanning the rest of the string:
`some rest` when the pattern matches from here, where `rest` is what the end
anchor leaves in place — nothing, or the single final newline that Python's
`$` also matches just before. -/
def priceSuffixAt (l : List Char) : Option (List Char) :=
  match l with
  | '-' :: rest =>
    match rest.dropWhile isPySpace with
    | '$' :: r2 =>
      let ds := r2.takeWhile Char.isDigit
      if ds.isEmpty then none
      else
        match r2.drop ds.length with
        | [] => some []
        | ['\n'] => some ['\n']
        | '.' :: r3 =>
          match r3 with
          | [d1, d2] => if d1.isDigit && d2.isDigit then some [] else none
          | [d1, d2, '\n'] => if d1.isDigit && d2.isDigit then some ['\n'] else none
          | _ => none
        | _ => none
    | _ => none
  | _ => none

/-- Models `re.sub(r'-\s*\$\d+(\.\d{2})?$', '', title)`: remove the leftmost
suffix matching the anchored price pattern, keeping whatever the end anchor
spared (a lone final newline). -/
def dropPriceSuffix : List Char → List Char
  | [] => []
  | c :: cs =>
    match priceSuffixAt (c :: cs) with
    | some rest => rest
    | none => c :: dropPriceSuffix cs

/-- Case-insensitive "begins with". -/
def ciStartsWith (pre l : List Char) : Bool :=
  startsWithL (toLowerL pre) (toLowerL l)

/-- Models `re.sub(r'^(Deal:|Hot Deal:|Amazon Deal:)', '', title, flags=re.IGNORECASE)`:
the alternatives are anchored at the string start and tried in order. -/
def dropDealPre (l : List Char) : List Char :=
  if ciStartsWith "deal:".toList l then l.drop 5
  else if ciStartsWith "hot deal:".toList l then l.drop 9
  else if ciStartsWith "amazon deal:".toList l then l.drop 12
  else l

/-- Models `re.sub(r'\s+', ' ', title)`: collapse each whitespace run to one space. -/
def collapseWs : List Char → List Char
  | [] => []
  | [c] => [if isPySpace c then ' ' else c]
  | c1 :: c2 :: cs =>
    if isPySpace c1 && isPySpace c2 then collapseWs (c2 :: cs)
    else (if isPySpace c1 then ' ' else c1) :: collapseWs (c2 :: cs)

/-- Models `clean_title(title)`: the script's five substitutions in order. -/
def clean_title (title : String) : String :=
  let l0 := title.toList
  let l1 := rmBracketsF (l0.length + 1) l0
  let l2 := rmParenOffF (l1.length + 1) l1
  let l3 := dropPriceSuffix l2
  let l4 := dropDealPre l3
  String.mk (pyStrip (collapseWs l4))

/-! ## Scoring (`calculate_deal_score`) -/

/-- Models `float` on the unsigned decimal literals the scraper produces
(digit run, optionally split by one `.`), as an exact pair
(numerator, positive scale) with value `numerator / scale`; `none` models a
raised `ValueError`. -/
def parseFloatQ (l : List Char) : Option (Nat × Nat) :=
  match l.findIdx? (fun c => c == '.') with
  | none =>
    if !l.isEmpty && l.all Char.isDigit then some (natOfDigits l, 1) else none
  | some i =>
    let a := l.take i
    let b := l.drop (i + 1)
    if a.all Char.isDigit && b.all Char.isDigit && !(b.contains '.') &&
        !(a.isEmpty && b.isEmpty) then
      some (natOfDigits a * 10 ^ b.length + natOfDigits b, 10 ^ b.length)
    else none

/-- Models `calculate_deal_score(title, price, discount)`: price band
contribution (parse failures contribute 0, mirroring the bare `except`),
discount band contribution, and the title-keyword bonus on the lowercased
title. The price comparisons are exact rational comparisons against 10, 25
and 50, which agree with the script's float comparisons for all two-decimal
amounts. -/
def calculate_deal_score (title : String) (price : String) (discount : Nat) : Nat :=
  let priceScore :=
    if price = "" then 0
    else
      match parseFloatQ (price.toList.filter (fun c => !(c == '$'))) with
      | none => 0
      | some nd =>
        if nd.1 ≤ 10 * nd.2 then 3
        else if nd.1 ≤ 25 * nd.2 then 2
        else if nd.1 ≤ 50 * nd.2 then 1
        else 0
  let discountScore :=
    if discount ≥ 50 then 3
    else if discount ≥ 30 then 2
    else if discount ≥ 20 then 1
    else 0
  let t := toLowerL title.toList
  let titleScore :=
    if hasSubL "new".toList t || hasSubL "hot".toList t ||
        hasSubL "limited".toList t || hasSubL "exclusive".toList t then 1
    else 0
  priceScore + discountScore + titleScore

/-! ## Categorisation (`categorize`) -/

def techKeywords : List String :=
  ["ssd", "hdd", "nvme", "gpu", "graphics card", "ram", "memory", "keyboard",
   "mouse", "monitor", "router", "ipad", "iphone", "tablet", "laptop",
   "pc case", "cable", "charger", "headphones", "earbuds"]

def gamingKeywords : List String :=
  ["gaming", "nintendo", "playstation", "xbox", "steam", "game", "controller",
   "joystick"]

def homeKeywords : List String :=
  ["sofa", "mattress", "vacuum", "kitchen", "cookware", "air purifier",
   "heater", "humidifier", "purifier", "bulb", "lamp", "blanket", "towel",
   "appliance"]

def fitnessKeywords : List String :=
  ["shoe", "fitness", "yoga", "treadmill", "dumbbell", "protein", "sneakers",
   "running", "workout", "gym", "exercise", "bike"]

def accessoriesKeywords : List String :=
  ["case", "charger", "backpack", "watch band", "wallet", "sleeve", "stand",
   "mount", "holder"]

def giftsKeywords : List String :=
  ["gift", "holiday", "christmas", "present", "lego", "toy", "puzzle",
   "board game", "card game"]

def babyKeywords : List String :=
  ["baby", "kids", "children", "diaper", "stroller", "crib", "toy",
   "educational"]

def beautyKeywords : List String :=
  ["shampoo", "conditioner", "soap", "lotion", "perfume", "makeup", "skincare",
   "hair", "nail"]

def petsKeywords : List String :=
  ["dog", "cat", "pet", "puppy", "kitten", "collar", "leash", "bed", "food",
   "treat"]

/-- `any(x in t for x in keywords)`. -/
def anyKeyword (t : List Char) (ks : List String) : Bool :=
  ks.any (fun k => hasSubL k.toList t)

/-- Models `categorize(title)`: the script's ordered chain of keyword-set tests
on the lowercased title; the first matching set wins, default `"General"`. -/
def categorize (title : String) : String :=
  let t := toLowerL title.toList
  if anyKeyword t techKeywords then "Tech"
  else if anyKeyword t gamingKeywords then "Gaming"
  else if anyKeyword t homeKeywords then "Home"
  else if anyKeyword t fitnessKeywords then "Fitness"
  else if anyKeyword t accessoriesKeywords then "Accessories"
  else if anyKeyword t giftsKeywords then "Gifts"
  else if anyKeyword t babyKeywords then "Baby"
  else if anyKeyword t beautyKeywords then "Beauty"
  else if anyKeyword t petsKeywords then "Pets"
  else "General"

/-! ## Fuzzy title similarity (`difflib.SequenceMatcher`)

The script calls `SequenceMatcher(None, a, b).ratio()`, i.e. twice the total
size of the matching blocks divided by the sum of the lengths.  The model
below reproduces `find_longest_match` (with no junk; the autojunk popularity
heuristic only activates for strings of length ≥ 200 and is not modelled)
and the recursive block decomposition of `get_matching_blocks`, summing the
block sizes.  The float threshold test `ratio() >= 0.85` is modelled as the
exact rational comparison `2*M/T ≥ 17/20`, which agrees with the float
comparison for all string lengths that occur here. -/

/-- Indexing with a default, for the scan windows below. -/
def getAt (l : List Char) (i : Nat) : Char :=
  l.getD i ' '

/-- Length of the longest common block of `a` and `b` ending at positions
`i`, `j` and staying inside the window starting at `alo`, `blo`.  Fuelled
structurally; `suffLen` supplies fuel `i + 1`, which is always sufficient. -/
def suffLenF (a b : List Char) (alo blo : Nat) : Nat → Nat → Nat → Nat
  | 0, _, _ => 0
  | fuel + 1, i, j =>
    if getAt a i == getAt b j then
      if i ≤ alo || j ≤ blo then 1
      else 1 + suffLenF a b alo blo fuel (i - 1) (j - 1)
    else 0

def suffLen (a b : List Char) (alo blo i j : Nat) : Nat :=
  suffLenF a b alo blo (i + 1) i j

/-- Models `find_longest_match(alo, ahi, blo, bhi)`: scanning ending positions
`i` ascending then `j` ascending, keep the first strictly larger common-suffix
length, exactly as difflib's `j2len` sweep does; returns (start in a, start
in b, size). -/
def flm (a b : List Char) (alo ahi blo bhi : Nat) : Nat × Nat × Nat :=
  let cands :=
    (List.range (ahi - alo)).flatMap fun di =>
      (List.range (bhi - blo)).map fun dj => (alo + di, blo + dj)
  cands.foldl
    (fun best ij =>
      let s := suffLen a b alo blo ij.1 ij.2
      if s > best.2.2 then (ij.1 + 1 - s, ij.2 + 1 - s, s) else best)
    (alo, blo, 0)

/-- Models the block decomposition of `get_matching_blocks`, returning the total
matched size `M`: recursively split around the longest match.  Fuelled
structurally; every recursive window is strictly shorter on the `a` side, so
fuel `a.length + 1` is always sufficient. -/
def matchTotalF (a b : List Char) : Nat → Nat → Nat → Nat → Nat → Nat
  | 0, _, _, _, _ => 0
  | fuel + 1, alo, ahi, blo, bhi =>
    let m := flm a b alo ahi blo bhi
    if m.2.2 == 0 then 0
    else
      matchTotalF a b fuel alo m.1 blo m.2.1 + m.2.2 +
        matchTotalF a b fuel (m.1 + m.2.2) ahi (m.2.1 + m.2.2) bhi

def matchTotal (a b : List Char) : Nat :=
  matchTotalF a b (a.length + 1) 0 a.length 0 b.length

/-- Models `is_duplicate_title(title1, title2)` at the script's fixed threshold
0.85: `SequenceMatcher(None, title1.lower(), title2.lower()).ratio() >= 0.85`.
When both strings are empty, `ratio()` is defined as 1.0, hence `true`. -/
def is_duplicate_title (title1 title2 : String) : Bool :=
  let a := toLowerL title1.toList
  let b := toLowerL title2.toList
  let t := a.length + b.length
  if t == 0 then true else decide (17 * t ≤ 40 * matchTotal a b)

/-! ## Affiliate tag (`add_affiliate_tag` and `urllib.parse`)

`urlparse`/`urlunparse` are modelled at the granularity the script uses: the
text before the first `?` (fragment split off first), the query, and the
fragment.  `parse_qs`/`urlencode(..., doseq=True)` are modelled with the
`unquote_plus`/`quote_plus` codec taken as the identity: split the query on
`&`, split each part at its first `=`, drop parts with an empty value
(`keep_blank_values` is false), group values by key in first-occurrence
order, and re-encode in that order.  Parameter tokens are therefore compared
in the form in which they appear in the URL; Python keeps the same pairs up
to re-encoding of their decoded values (a raw `/` in a value comes back as
`%2F`, a properly encoded value round-trips unchanged), which does not
change which keys or values are kept, replaced or dropped. -/

/-- Split at the first occurrence of `sep`, if any. -/
def splitAtFirst (sep : Char) : List Char → Option (List Char × List Char)
  | [] => none
  | c :: cs =>
    if c == sep then some ([], cs)
    else
      match splitAtFirst sep cs with
      | some ab => some (c :: ab.1, ab.2)
      | none => none

/-- Split on every `&` (the query-pair separator). -/
def splitAmp : List Char → List (List Char)
  | [] => [[]]
  | c :: cs =>
    let r := splitAmp cs
    if c == '&' then [] :: r
    else
      match r with
      | [] => [[c]]
      | h :: t => (c :: h) :: t

/-- One `name=value` piece of the query, dropped when there is no `=` or the
value is empty, exactly as `parse_qs` with default arguments does. -/
def parsePiece (part : List Char) : Option (String × String) :=
  match splitAtFirst '=' part with
  | none => none
  | some kv => if kv.2.isEmpty then none else some (String.mk kv.1, String.mk kv.2)

/-- Append a value under a key, keeping first-occurrence key order
(Python dicts preserve insertion order). -/
def addPair : List (String × List String) → String × String → List (String × List String)
  | [], kv => [(kv.1, [kv.2])]
  | e :: rest, kv =>
    if e.1 = kv.1 then (e.1, e.2 ++ [kv.2]) :: rest
    else e :: addPair rest kv

/-- Models `parse_qs(query)` as an ordered association of key to values. -/
def parseQsL (q : List Char) : List (String × List String) :=
  (((splitAmp q).filterMap parsePiece)).foldl addPair []

def AFFILIATE_TAG : String := "syncflow-20"

/-- Models the assignment `q["tag"] = AFFILIATE_TAG`: replace the values of an
existing `tag` key in place, else append the key. -/
def setTag : List (String × List String) → List (String × List String)
  | [] => [("tag", [AFFILIATE_TAG])]
  | e :: rest =>
    if e.1 = "tag" then ("tag", [AFFILIATE_TAG]) :: rest
    else e :: setTag rest

/-- `'&'.join`, as `urlencode` produces it. -/
def joinAmp : List (List Char) → List Char
  | [] => []
  | [p] => p
  | p :: ps => p ++ '&' :: joinAmp ps

/-- Models `urlencode(q, doseq=True)` with `quote_plus` as the identity: one
`k=v` piece per value, keys in dictionary order, joined with `&`. -/
def encodeQs (ps : List (String × List String)) : List Char :=
  joinAmp (ps.flatMap fun e => e.2.map fun v => e.1.toList ++ '=' :: v.toList)

/-- The three components `urlparse` contributes here: text before the query,
the query, and the fragment (with a flag recording whether a `?` was present;
`urlunparse` of a replaced query always re-adds `?` when the new query is
nonempty, which it is here since `tag` is always set). -/
def splitUrl (url : String) : List Char × List Char × Option (List Char) :=
  let l := url.toList
  let pf :=
    match splitAtFirst '#' l with
    | some ab => (ab.1, some ab.2)
    | none => (l, none)
  match splitAtFirst '?' pf.1 with
  | some ab => (ab.1, ab.2, pf.2)
  | none => (pf.1, [], pf.2)

/-- Models `add_affiliate_tag(url)`. -/
def add_affiliate_tag (url : String) : String :=
  let parts := splitUrl url
  let newQ := encodeQs (setTag (parseQsL parts.2.1))
  let frag :=
    match parts.2.2 with
    | some f => '#' :: f
    | none => []
  String.mk (parts.1 ++ '?' :: newQ ++ frag)

/-- The flat `(key, value)` pairs of a grouped query mapping. -/
def pairsOf (ps : List (String × List String)) : List (String × String) :=
  ps.flatMap fun e => e.2.map fun v => (e.1, v)

/-- The individual `(key, value)` pairs of a URL's query, in the grouped order
`parse_qs` produces; the vocabulary in which claim C9 speaks of "query
parameters already present". -/
def qsPairs (url : String) : List (String × String) :=
  pairsOf (parseQsL (splitUrl url).2.1)

/-! ## The curator (`main`) -/

def MAX_DEALS : Nat := 80
def max_per_category : Nat := 25

/-- One raw feed entry as handed over by `feedparser` (`entry.get(...)`). -/
structure Entry where
  title : String
  summary : String
  link : String
deriving DecidableEq

/-- The serialized Deal record the script appends to `deals`. -/
structure Deal where
  id : String
  title : String
  image : String
  price : String
  rating : String
  reviews : String
  url : String
  category : String
  timestamp : Int
  score : Nat
  discount : Nat
deriving DecidableEq

/-- `scrape_amazon_details` is short-circuited in the script: fallback price
(sentinel `"$?"` when the fallback is falsy) and fixed `"N/A"` fields. -/
structure DealDetails where
  price : String
  rating : String
  reviews : String
deriving DecidableEq

def scrape_amazon_details (_asin : String) (titlePriceFallback : Option String) :
    DealDetails :=
  { price :=
      match titlePriceFallback with
      | some p => if p = "" then "$?" else p
      | none => "$?"
    rating := "N/A"
    reviews := "N/A" }

/-- The `continue` sites of the entry loop, in source order. -/
inductive SkipReason where
  | noProductLink
  | asinMissingOrSeen
  | duplicateTitle
  | categoryFull
  | noImage
deriving DecidableEq

/-- The mutable run state of `main`: accepted deals, seen ASINs, seen cleaned
titles, and the per-category counters (`defaultdict(int)` as a total map). -/
structure CurationState where
  deals : List Deal
  seenAsins : List String
  seenTitles : List String
  catCounts : String → Nat

def initState : CurationState :=
  { deals := [], seenAsins := [], seenTitles := [], catCounts := fun _ => 0 }

/-- One pass of the entry loop body up to (not including) the state mutation:
either the deal that would be appended, or the `continue` reason.  `clock n`
models the `int(time.time())` read when the n-th deal is constructed. -/
def attemptDeal (clock : Nat → Int) (s : CurationState) (e : Entry) :
    Except SkipReason Deal :=
  let title := String.mk (pyStrip e.title.toList)
  match extract_amazon_url e.summary e.link with
  | none => .error .noProductLink
  | some amazonUrl =>
    match extract_asin amazonUrl with
    | none => .error .asinMissingOrSeen
    | some asin =>
      if asin = "" || s.seenAsins.contains asin then .error .asinMissingOrSeen
      else if s.seenTitles.any (fun seen => is_duplicate_title title seen) then
        .error .duplicateTitle
      else
        let category := categorize title
        if s.catCounts category ≥ max_per_category then .error .categoryFull
        else
          let image? :=
            match extract_image_from_summary e.summary with
            | some img => some img
            | none => amazon_image_from_asin asin
          match image? with
          | none => .error .noImage
          | some image =>
            let discount := extract_discount_from_title title
            let titlePriceFallback := extract_price_from_title title
            let details := scrape_amazon_details asin titlePriceFallback
            let score := calculate_deal_score title details.price discount
            let cleanedTitle := clean_title title
            let finalUrl := add_affiliate_tag amazonUrl
            .ok
              { id := asin
                title := cleanedTitle
                image := image
                price := details.price
                rating := details.rating
                reviews := details.reviews
                url := finalUrl
                category := category
                timestamp := clock s.deals.length
                score := score
                discount := discount }

/-- The state mutation of an acceptance: append the deal, record ASIN and
cleaned title, bump the category counter. -/
def acceptDeal (s : CurationState) (d : Deal) : CurationState :=
  { deals := s.deals ++ [d]
    seenAsins := d.id :: s.seenAsins
    seenTitles := d.title :: s.seenTitles
    catCounts := fun c => if c = d.category then s.catCounts c + 1 else s.catCounts c }

/-- One full iteration of the entry loop (a `continue` leaves the state as is). -/
def processEntry (clock : Nat → Int) (s : CurationState) (e : Entry) : CurationState :=
  match attemptDeal clock s e with
  | .error _ => s
  | .ok d => acceptDeal s d

/-- The inner `for entry in entries` loop with its
`if len(deals) >= MAX_DEALS: break` after each iteration. -/
def processEntries (clock : Nat → Int) (s : CurationState) : List Entry → CurationState
  | [] => s
  | e :: es =>
    let s' := processEntry clock s e
    if s'.deals.length ≥ MAX_DEALS then s' else processEntries clock s' es

/-- The outer `for feed_url in RSS_FEEDS` loop with its capacity check before
each feed; the entry lists stand for the fetched `fetch_feed(feed_url)`
results, which are input at the boundary of the modelled core. -/
def processFeeds (clock : Nat → Int) (s : CurationState) :
    List (List Entry) → CurationState
  | [] => s
  | f :: fs =>
    if s.deals.length ≥ MAX_DEALS then s
    else processFeeds clock (processEntries clock s f) fs

/-- The accepted deals in acceptance order, before the final sort. -/
def mainAccepted (clock : Nat → Int) (feeds : List (List Entry)) : List Deal :=
  (processFeeds clock initState feeds).deals

/-- The sort key of `deals.sort(key=lambda x: (x['score'], x['timestamp']), reverse=True)`. -/
def dealKey (d : Deal) : Nat × Int :=
  (d.score, d.timestamp)

/-- `d` may precede `e` in the reverse-sorted output: `e`'s key is
lexicographically at most `d`'s. -/
def dealOrder (d e : Deal) : Prop :=
  e.score < d.score ∨ (e.score = d.score ∧ e.timestamp ≤ d.timestamp)

instance : DecidableRel dealOrder := fun d e => by
  unfold dealOrder; infer_instance

/-- The final output list of `main`: Python's `list.sort` with a key and
`reverse=True` is the stable descending sort, modelled by insertion sort with
the reflexive total order `dealOrder`. -/
def mainDeals (clock : Nat → Int) (feeds : List (List Entry)) : List Deal :=
  List.insertionSort dealOrder (mainAccepted clock feeds)

/-! ## Auxiliary notions used by the statements and proofs -/

/-- A deal with its creation timestamp erased: the byte content of the output
record apart from the wall-clock field. -/
def dealData (d : Deal) : Deal :=
  { d with timestamp := 0 }

/-- The stripped title of an entry, as the loop computes it once up front. -/
def entryTitle (e : Entry) : String :=
  String.mk (pyStrip e.title.toList)

/-- Identifier bookkeeping invariant of the run state: output identifiers are
pairwise distinct and all recorded in `seen_asins`. -/
def IdsOK (s : CurationState) : Prop :=
  (s.deals.map Deal.id).Nodup ∧ ∀ d ∈ s.deals, d.id ∈ s.seenAsins

/-- Category bookkeeping invariant of the run state: each counter equals the
number of accepted deals of that category and respects the per-category cap. -/
def CatOK (s : CurationState) : Prop :=
  ∀ c, (s.deals.filter (fun d => d.category == c)).length = s.catCounts c ∧
    s.catCounts c ≤ max_per_category

/-- Two deals that are byte-identical apart from their timestamps, which are
the constant clock readings of their respective runs. -/
def TsPair (t1 t2 : Int) (d e : Deal) : Prop :=
  dealData d = dealData e ∧ d.timestamp = t1 ∧ e.timestamp = t2

/-- Deal lists of two constant-clock runs, matched pointwise. -/
def TsRel (t1 t2 : Int) (l1 l2 : List Deal) : Prop :=
  List.Forall₂ (TsPair t1 t2) l1 l2

/-- Run states of two constant-clock runs: matched deal lists, identical
dedup/bookkeeping components. -/
def StateRel (t1 t2 : Int) (s1 s2 : CurationState) : Prop :=
  TsRel t1 t2 s1.deals s2.deals ∧ s1.seenAsins = s2.seenAsins ∧
    s1.seenTitles = s2.seenTitles ∧ s1.catCounts = s2.catCounts

/-- Well-formedness of a grouped query mapping as `parse_qs` produces it:
keys pairwise distinct, `&`-free and `=`-free; value groups nonempty with
nonempty `&`-free values. -/
def QsWF (ps : List (String × List String)) : Prop :=
  (ps.map Prod.fst).Nodup ∧
    ∀ e ∈ ps, ('&' ∉ e.1.toList ∧ '=' ∉ e.1.toList) ∧ e.2 ≠ [] ∧
      ∀ v ∈ e.2, v ≠ "" ∧ '&' ∉ v.toList

/-- The per-pair facts `parse_qs` guarantees for each `name=value` piece of a
query `q`: separator-free tokens whose characters come from `q`. -/
def QPairOK (q : List Char) (kv : String × String) : Prop :=
  ('&' ∉ kv.1.toList ∧ '=' ∉ kv.1.toList ∧ ∀ c ∈ kv.1.toList, c ∈ q) ∧
    (kv.2 ≠ "" ∧ '&' ∉ kv.2.toList ∧ ∀ c ∈ kv.2.toList, c ∈ q)

/-- The per-entry facts of a grouped `parse_qs` result over a query `q`. -/
def QEntryOK (q : List Char) (e : String × List String) : Prop :=
  ('&' ∉ e.1.toList ∧ '=' ∉ e.1.toList ∧ ∀ c ∈ e.1.toList, c ∈ q) ∧
    e.2 ≠ [] ∧ ∀ v ∈ e.2, v ≠ "" ∧ '&' ∉ v.toList ∧ ∀ c ∈ v.toList, c ∈ q

/-! ## Concrete inputs used by counterexamples and witnesses -/

/-- An entry whose raw title is already clean. -/
def entryPlain : Entry :=
  { title := "Widget", summary := "", link := "https://www.amazon.com/dp/B0TESTASIN" }

/-- An entry whose raw title carries a bracket tag that normalization removes,
with a distinct ASIN. -/
def entryBracket : Entry :=
  { title := "[AAAA] Widget", summary := "", link := "https://www.amazon.com/dp/B1TESTASIN" }

/-- An entry whose bracket tag contains a scoring keyword (`hot`). -/
def entryHot : Entry :=
  { title := "[HOT] Widget", summary := "", link := "https://www.amazon.com/dp/B0TESTASIN" }

/-- An entry whose bracket tag contains no scoring keyword. -/
def entrySale : Entry :=
  { title := "[SALE] Widget", summary := "", link := "https://www.amazon.com/dp/B1TESTASIN" }

/-- A run state that has already seen the ASIN of `entryPlain`. -/
def stateSeenAsin : CurationState :=
  { deals := [], seenAsins := ["B0TESTASIN"], seenTitles := [], catCounts := fun _ => 0 }

/-- A placeholder deal for building a saturated state. -/
def dummyDeal : Deal :=
  { id := "B9DUMMY999", title := "Dummy", image := "i", price := "$?",
    rating := "N/A", reviews := "N/A", url := "u", category := "General",
    timestamp := 0, score := 0, discount := 0 }

/-- A run state that has already reached the global capacity. -/
def stateFull : CurationState :=
  { deals := List.replicate MAX_DEALS dummyDeal, seenAsins := [], seenTitles := [],
    catCounts := fun _ => 0 }

/-- The title-normalization input of the spec's worked example. -/
def exampleRawTitle : String := "[HOT] Deal: Echo Dot (50% OFF) - $19.99"

/-- A product URL that already carries a (different) affiliate tag. -/
def taggedUrl : String := "https://www.amazon.com/dp/B0TESTASIN?tag=partner-21&x=1"

/-- The deal the curator builds from `entryPlain` on an empty state at clock 0. -/
def widgetDeal : Deal :=
  { id := "B0TESTASIN", title := "Widget",
    image := "https://m.media-amazon.com/images/I/B0TESTASIN._AC_SL1500_.jpg",
    price := "$?", rating := "N/A", reviews := "N/A",
    url := "https://www.amazon.com/dp/B0TESTASIN?tag=syncflow-20",
    category := "General", timestamp := 0, score := 0, discount := 0 }

/-- The deal the curator builds from `entryHot` on an empty state at clock 0:
identical stored fields except the score, which saw the raw title's `[HOT]`. -/
def hotWidgetDeal : Deal :=
  { widgetDeal with score := 1 }

/-! # Lemmas -/

/-- A successful pass of the entry loop pins down where each stored field comes
from: the title stored is the cleaned stripped title, the score was computed
from the raw stripped title together with the stored price and discount, the
category from the raw stripped title, the timestamp is the clock reading at
the current acceptance index, the ASIN is new, the category is below its cap,
and the fuzzy duplicate gate was evaluated on the raw stripped title. -/
theorem attemptDeal_ok_facts (clock : Nat → Int) (s : CurationState) (e : Entry)
    (d : Deal) (h : attemptDeal clock s e = .ok d) :
    d.title = clean_title (entryTitle e) ∧
    d.score = calculate_deal_score (entryTitle e) d.price d.discount ∧
    d.category = categorize (entryTitle e) ∧
    d.timestamp = clock s.deals.length ∧
    (d.id ≠ "" ∧ d.id ∉ s.seenAsins) ∧
    s.catCounts d.category < max_per_category ∧
    (s.seenTitles.any fun seen => is_duplicate_title (entryTitle e) seen) = false := by
  simp only [attemptDeal] at h
  split at h
  · exact Except.noConfusion h
  next u hu =>
    split at h
    · exact Except.noConfusion h
    next a ha =>
      split at h
      · exact Except.noConfusion h
      next hgate =>
        split at h
        · exact Except.noConfusion h
        next hdup =>
          split at h
          · exact Except.noConfusion h
          next hcat =>
            split at h
            · exact Except.noConfusion h
            next img himg =>
              injection h with h
              subst h
              have hg : a ≠ "" ∧ a ∉ s.seenAsins := by
                simpa [not_or] using hgate
              refine ⟨rfl, rfl, rfl, rfl, hg, ?_, ?_⟩
              · exact Nat.lt_of_not_le hcat
              · simpa [entryTitle] using hdup

/-- A skipped entry leaves the state untouched. -/
theorem processEntry_of_error {clock : Nat → Int} {s : CurationState} {e : Entry}
    {r : SkipReason} (h : attemptDeal clock s e = .error r) :
    processEntry clock s e = s := by
  unfold processEntry
  rw [h]

/-- An accepted entry performs exactly the four bookkeeping mutations. -/
theorem processEntry_of_ok {clock : Nat → Int} {s : CurationState} {e : Entry}
    {d : Deal} (h : attemptDeal clock s e = .ok d) :
    processEntry clock s e = acceptDeal s d := by
  unfold processEntry
  rw [h]

/-- One loop iteration preserves the identifier invariant: the exact-identifier
gate admits only ASINs outside `seen_asins`, and acceptance records the new one. -/
theorem processEntry_idsOK (clock : Nat → Int) (s : CurationState) (e : Entry)
    (h : IdsOK s) : IdsOK (processEntry clock s e) := by
  cases hd : attemptDeal clock s e with
  | error r => rw [processEntry_of_error hd]; exact h
  | ok d =>
    rw [processEntry_of_ok hd]
    obtain ⟨-, -, -, -, ⟨-, hnew⟩, -, -⟩ := attemptDeal_ok_facts clock s e d hd
    obtain ⟨hnd, hsub⟩ := h
    constructor
    · simp only [acceptDeal, List.map_append, List.map_cons, List.map_nil]
      rw [List.nodup_append]
      refine ⟨hnd, List.nodup_singleton _, fun x hx hx1 => ?_⟩
      rw [List.mem_singleton] at hx1
      subst hx1
      obtain ⟨d', hd', hid⟩ := List.mem_map.mp hx
      exact hnew (hid ▸ hsub d' hd')
    · intro d' hd'
      simp only [acceptDeal] at hd' ⊢
      rcases List.mem_append.mp hd' with h1 | h1
      · exact List.mem_cons_of_mem _ (hsub d' h1)
      · rw [List.mem_singleton] at h1
        subst h1
        exact List.mem_cons_self _ _

theorem processEntries_idsOK (clock : Nat → Int) (es : List Entry) :
    ∀ s, IdsOK s → IdsOK (processEntries clock s es) := by
  induction es with
  | nil => exact fun s h => h
  | cons e es ih =>
    intro s h
    simp only [processEntries]
    split
    · exact processEntry_idsOK clock s e h
    · exact ih _ (processEntry_idsOK clock s e h)

theorem processFeeds_idsOK (clock : Nat → Int) (feeds : List (List Entry)) :
    ∀ s, IdsOK s → IdsOK (processFeeds clock s feeds) := by
  induction feeds with
  | nil => exact fun s h => h
  | cons f fs ih =>
    intro s h
    simp only [processFeeds]
    split
    · exact h
    · exact ih _ (processEntries_idsOK clock f s h)

theorem idsOK_init : IdsOK initState :=
  ⟨List.nodup_nil, by intro d hd; simp [initState] at hd⟩

/-- Claim C1: deal identifiers in the final output are pairwise distinct, and an
entry whose extracted identifier is already in `seen_asins` is skipped with no
state change. -/
theorem C1_identifiers_unique :
    (∀ (clock : Nat → Int) (feeds : List (List Entry)),
      List.Pairwise (fun d e => d.id ≠ e.id) (mainDeals clock feeds)) ∧
    ∀ (clock : Nat → Int) (s : CurationState) (e : Entry) (u a : String),
      extract_amazon_url e.summary e.link = some u → extract_asin u = some a →
      a ∈ s.seenAsins → processEntry clock s e = s := by
  constructor
  · intro clock feeds
    have hids : IdsOK (processFeeds clock initState feeds) :=
      processFeeds_idsOK clock feeds initState idsOK_init
    have hperm : List.Perm (mainDeals clock feeds) (mainAccepted clock feeds) :=
      List.perm_insertionSort _ _
    have hnd2 : ((mainDeals clock feeds).map Deal.id).Nodup :=
      ((hperm.map Deal.id).nodup_iff).mpr hids.1
    exact List.pairwise_map.mp hnd2
  · intro clock s e u a hu ha hmem
    unfold processEntry attemptDeal
    simp [hu, ha, hmem, List.elem_iff]

/-- Witness for the skip half of C1 at a concrete entry and state. -/
theorem C1_identifiers_unique_witness :
    processEntry (fun _ => 0) stateSeenAsin entryPlain = stateSeenAsin :=
  C1_identifiers_unique.2 (fun _ => 0) stateSeenAsin entryPlain
    "https://www.amazon.com/dp/B0TESTASIN" "B0TESTASIN" (by decide) (by decide)
    (by decide)

/-- One loop iteration grows the output by at most one deal. -/
theorem processEntry_length (clock : Nat → Int) (s : CurationState) (e : Entry) :
    (processEntry clock s e).deals.length ≤ s.deals.length + 1 := by
  cases hd : attemptDeal clock s e with
  | error r => rw [processEntry_of_error hd]; omega
  | ok d => rw [processEntry_of_ok hd]; simp [acceptDeal]

/-- The inner loop never exceeds the global capacity: it breaks as soon as the
capacity is reached. -/
theorem processEntries_le (clock : Nat → Int) (es : List Entry) :
    ∀ s, s.deals.length < MAX_DEALS →
      (processEntries clock s es).deals.length ≤ MAX_DEALS := by
  induction es with
  | nil => exact fun s h => Nat.le_of_lt h
  | cons e es ih =>
    intro s h
    simp only [processEntries]
    have hlen := processEntry_length clock s e
    split
    · omega
    next hlt => exact ih _ (by omega)

theorem processFeeds_le (clock : Nat → Int) (feeds : List (List Entry)) :
    ∀ s, s.deals.length ≤ MAX_DEALS →
      (processFeeds clock s feeds).deals.length ≤ MAX_DEALS := by
  induction feeds with
  | nil => exact fun s h => h
  | cons f fs ih =>
    intro s h
    simp only [processFeeds]
    split
    · exact h
    next hlt => exact ih _ (processEntries_le clock f s (by omega))

/-- One loop iteration preserves the category counters invariant: the category
gate admits an entry only while its counter is below the cap. -/
theorem processEntry_catOK (clock : Nat → Int) (s : CurationState) (e : Entry)
    (h : CatOK s) : CatOK (processEntry clock s e) := by
  cases hd : attemptDeal clock s e with
  | error r => rw [processEntry_of_error hd]; exact h
  | ok d =>
    rw [processEntry_of_ok hd]
    obtain ⟨-, -, -, -, -, hcat, -⟩ := attemptDeal_ok_facts clock s e d hd
    intro c
    obtain ⟨hc1, hc2⟩ := h c
    by_cases hcd : d.category = c
    · subst hcd
      refine ⟨?_, ?_⟩
      · simp [acceptDeal, List.filter_append, hc1]
      · simp only [acceptDeal, if_pos rfl]
        exact hcat
    · refine ⟨?_, ?_⟩
      · have : (d.category == c) = false := by simpa using hcd
        simp [acceptDeal, List.filter_append, this, hc1,
          Ne.symm hcd]
      · simp only [acceptDeal, if_neg (Ne.symm hcd)]
        exact hc2

theorem processEntries_catOK (clock : Nat → Int) (es : List Entry) :
    ∀ s, CatOK s → CatOK (processEntries clock s es) := by
  induction es with
  | nil => exact fun s h => h
  | cons e es ih =>
    intro s h
    simp only [processEntries]
    split
    · exact processEntry_catOK clock s e h
    · exact ih _ (processEntry_catOK clock s e h)

theorem processFeeds_catOK (clock : Nat → Int) (feeds : List (List Entry)) :
    ∀ s, CatOK s → CatOK (processFeeds clock s feeds) := by
  induction feeds with
  | nil => exact fun s h => h
  | cons f fs ih =>
    intro s h
    simp only [processFeeds]
    split
    · exact h
    · exact ih _ (processEntries_catOK clock f s h)

theorem catOK_init : CatOK initState := by
  intro c
  constructor
  · simp [initState]
  · simp [initState, max_per_category]

/-- Claim C2: the final output never exceeds the global capacity of 80 deals
nor 25 deals in any one category, and once the capacity is reached the
remaining feeds (and, within a feed, the remaining entries) are not
processed. -/
theorem C2_capacity :
    (∀ (clock : Nat → Int) (feeds : List (List Entry)),
      (mainDeals clock feeds).length ≤ MAX_DEALS ∧
      ∀ c, ((mainDeals clock feeds).filter fun d => d.category == c).length ≤
        max_per_category) ∧
    (∀ (clock : Nat → Int) (s : CurationState) (feeds : List (List Entry)),
      MAX_DEALS ≤ s.deals.length → processFeeds clock s feeds = s) ∧
    ∀ (clock : Nat → Int) (s : CurationState) (e : Entry) (es : List Entry),
      MAX_DEALS ≤ (processEntry clock s e).deals.length →
      processEntries clock s (e :: es) = processEntry clock s e := by
  refine ⟨?_, ?_, ?_⟩
  · intro clock feeds
    have hperm : List.Perm (mainDeals clock feeds) (mainAccepted clock feeds) :=
      List.perm_insertionSort _ _
    constructor
    · rw [hperm.length_eq]
      exact processFeeds_le clock feeds initState (by simp [initState, MAX_DEALS])
    · intro c
      obtain ⟨hcnt, hle⟩ := processFeeds_catOK clock feeds initState catOK_init c
      have hfl := (hperm.filter (fun d => d.category == c)).length_eq
      unfold mainAccepted at hfl
      omega
  · intro clock s feeds h
    cases feeds with
    | nil => rfl
    | cons f fs =>
      simp only [processFeeds]
      rw [if_pos h]
  · intro clock s e es h
    simp only [processEntries]
    rw [if_pos h]

/-- Witness for the stop-at-capacity half of C2 at a saturated concrete state. -/
theorem C2_capacity_witness :
    processFeeds (fun _ => 0) stateFull [[entryPlain]] = stateFull :=
  C2_capacity.2.1 (fun _ => 0) stateFull [[entryPlain]]
    (by simp [stateFull, MAX_DEALS])

/-- `dealOrder` is total: any two key tuples compare. -/
instance : IsTotal Deal dealOrder :=
  ⟨by intro a b; unfold dealOrder; omega⟩

instance : IsTrans Deal dealOrder :=
  ⟨by intro a b c h1 h2; unfold dealOrder at *; omega⟩

/-- If the sort does not let `d` pass `b`, their keys differ. -/
theorem dealKey_ne_of_not_order {d b : Deal} (h : ¬ dealOrder d b) :
    dealKey b ≠ dealKey d := by
  unfold dealOrder at h
  unfold dealKey
  intro hk
  rw [Prod.mk.injEq] at hk
  exact h (Or.inr ⟨hk.1, le_of_eq hk.2⟩)

/-- Inserting into the stable sort keeps the key-equal deals of the tail in
order, with the new deal in front of none of its key-equals' predecessors. -/
theorem filter_key_orderedInsert (d : Deal) (l : List Deal) (k : Nat × Int) :
    (List.orderedInsert dealOrder d l).filter (fun x => decide (dealKey x = k)) =
      if dealKey d = k then
        d :: l.filter (fun x => decide (dealKey x = k))
      else l.filter (fun x => decide (dealKey x = k)) := by
  induction l with
  | nil =>
    by_cases hk : dealKey d = k
    · simp [List.orderedInsert, hk]
    · simp [List.orderedInsert, hk]
  | cons b l ih =>
    simp only [List.orderedInsert]
    by_cases hdb : dealOrder d b
    · rw [if_pos hdb]
      by_cases hk : dealKey d = k <;> simp [List.filter_cons, hk]
    · rw [if_neg hdb]
      have hbk : dealKey b ≠ dealKey d := dealKey_ne_of_not_order hdb
      rw [List.filter_cons, List.filter_cons]
      by_cases hbkk : dealKey b = k
      · have hdk : dealKey d ≠ k := fun hh => hbk (hbkk.trans hh.symm)
        simp [hbkk, hdk, ih]
      · simp [hbkk, ih]

/-- The stable sort preserves the subsequence of deals having any fixed key. -/
theorem filter_key_insertionSort (l : List Deal) (k : Nat × Int) :
    (List.insertionSort dealOrder l).filter (fun x => decide (dealKey x = k)) =
      l.filter (fun x => decide (dealKey x = k)) := by
  induction l with
  | nil => rfl
  | cons a l ih =>
    simp only [List.insertionSort]
    rw [filter_key_orderedInsert, List.filter_cons]
    by_cases hk : dealKey a = k
    · simp [hk, ih]
    · simp [hk, ih]

/-- Claim C3: the final output is sorted with respect to `dealOrder` (score
descending, ties by timestamp descending), it is a permutation of the
accepted sequence, and deals tied on the whole key stay in acceptance order
(stability); being defined from the accepted sequence alone, the order is a
function of it. -/
theorem C3_sort_law (clock : Nat → Int) (feeds : List (List Entry)) :
    List.Sorted dealOrder (mainDeals clock feeds) ∧
    List.Perm (mainDeals clock feeds) (mainAccepted clock feeds) ∧
    ∀ k : Nat × Int,
      (mainDeals clock feeds).filter (fun d => decide (dealKey d = k)) =
        (mainAccepted clock feeds).filter (fun d => decide (dealKey d = k)) :=
  ⟨List.sorted_insertionSort dealOrder _, List.perm_insertionSort _ _,
    fun k => filter_key_insertionSort _ k⟩

set_option maxRecDepth 200000 in
/-- Claim C5 counterexample: the fuzzy duplicate gate compares the raw title,
not the normalized one. With `"Widget"` already accepted, the raw title
`"[AAAA] Widget"` passes the gate (ratio below 0.85) although its normalized
title `"Widget"` is an exact repeat (ratio 1), so the run accepts two deals
with identical stored titles — impossible had the gate used the single
normalized value the claim asserts. -/
theorem C5_title_cx :
    (mainDeals (fun _ => 0) [[entryPlain, entryBracket]]).map Deal.title =
        ["Widget", "Widget"] ∧
    is_duplicate_title (entryTitle entryBracket) "Widget" = false ∧
    is_duplicate_title (clean_title (entryTitle entryBracket)) "Widget" = true :=
  ⟨by decide, by decide, by decide⟩

/-- Claim C5 (amended): the fuzzy near-duplicate comparison uses the raw
(stripped) title against the previously stored normalized titles, while the
value stored in the deal is the normalized title computed afterwards; the two
coincide only when normalization leaves the raw title unchanged. -/
theorem C5_title_amended (clock : Nat → Int) (s : CurationState) (e : Entry)
    (d : Deal) (h : attemptDeal clock s e = .ok d) :
    d.title = clean_title (entryTitle e) ∧
    (s.seenTitles.any fun seen => is_duplicate_title (entryTitle e) seen) = false :=
  ⟨(attemptDeal_ok_facts clock s e d h).1,
    (attemptDeal_ok_facts clock s e d h).2.2.2.2.2.2⟩

set_option maxRecDepth 200000 in
theorem C5_title_amended_witness :
    widgetDeal.title = clean_title (entryTitle entryPlain) ∧
    (initState.seenTitles.any fun seen =>
      is_duplicate_title (entryTitle entryPlain) seen) = false :=
  C5_title_amended (fun _ => 0) initState entryPlain widgetDeal rfl

set_option maxRecDepth 200000 in
/-- Claim C6 counterexample: the stored score is computed from the raw title,
not the stored one. `[HOT] Widget` and `[SALE] Widget` produce deals with
identical stored (title, price, discount) = ("Widget", "$?", 0) but scores
1 and 0, and the Scorer on the stored fields gives 0, not the stored 1. -/
theorem C6_score_cx :
    (mainDeals (fun _ => 0) [[entryHot, entrySale]]).map
        (fun d => (d.title, d.price, d.discount, d.score)) =
      [("Widget", "$?", 0, 1), ("Widget", "$?", 0, 0)] ∧
    calculate_deal_score "Widget" "$?" 0 = 0 :=
  ⟨by decide, by decide⟩

/-- Claim C6 (amended): every accepted deal's stored score is the Scorer
applied to the raw (stripped) entry title together with the stored price text
and stored discount percent. -/
theorem C6_score_amended (clock : Nat → Int) (s : CurationState) (e : Entry)
    (d : Deal) (h : attemptDeal clock s e = .ok d) :
    d.score = calculate_deal_score (entryTitle e) d.price d.discount :=
  (attemptDeal_ok_facts clock s e d h).2.1

set_option maxRecDepth 200000 in
theorem C6_score_amended_witness :
    hotWidgetDeal.score =
      calculate_deal_score (entryTitle entryHot) hotWidgetDeal.price
        hotWidgetDeal.discount :=
  C6_score_amended (fun _ => 0) initState entryHot hotWidgetDeal rfl

/-- Claim C7: on the spec's worked example the Title Normalizer returns
`"Deal: Echo Dot"`, not the claimed `"Echo Dot"`: removing `[HOT]` leaves a
leading space, so the start-anchored promotional-prefix pattern cannot match
and `Deal:` survives into the output. -/
theorem C7_clean_title_example :
    clean_title exampleRawTitle = "Deal: Echo Dot" ∧
    clean_title exampleRawTitle ≠ "Echo Dot" :=
  ⟨by decide, by decide⟩

/-- Claim C8: the Categorizer maps "Razer Gaming Mouse" to "Tech" — the Tech
keyword set is tested first and matches on "mouse" — even though the Gaming
keyword set also matches the title. -/
theorem C8_categorize_example :
    categorize "Razer Gaming Mouse" = "Tech" ∧
    anyKeyword (toLowerL "Razer Gaming Mouse".toList) gamingKeywords = true :=
  ⟨by decide, by decide⟩

/-- Claim C10: the ASIN image fallback of a nonempty ASIN is a nonempty URL,
and no entry is ever rejected at the no-image `continue`: any entry reaching
the image step has passed the ASIN gate, so the fallback is available. -/
theorem C10_no_image_skip :
    (∀ a : String, a ≠ "" → ∃ s, amazon_image_from_asin a = some s ∧ s ≠ "") ∧
    ∀ (clock : Nat → Int) (s : CurationState) (e : Entry),
      attemptDeal clock s e ≠ .error .noImage := by
  constructor
  · intro a ha
    refine ⟨_, by rw [amazon_image_from_asin, if_neg ha], ?_⟩
    intro hcon
    have hlen := congrArg String.length hcon
    rw [String.length_append, String.length_append] at hlen
    have h1 : ("https://m.media-amazon.com/images/I/" : String).length = 36 := rfl
    have h2 : ("._AC_SL1500_.jpg" : String).length = 16 := rfl
    have h3 : ("" : String).length = 0 := rfl
    omega
  · intro clock s e hEq
    simp only [attemptDeal] at hEq
    split at hEq
    · injection hEq with hr; exact SkipReason.noConfusion hr
    next u hu =>
      split at hEq
      · injection hEq with hr; exact SkipReason.noConfusion hr
      next a ha =>
        split at hEq
        · injection hEq with hr; exact SkipReason.noConfusion hr
        next hgate =>
          split at hEq
          · injection hEq with hr; exact SkipReason.noConfusion hr
          next hdup =>
            split at hEq
            · injection hEq with hr; exact SkipReason.noConfusion hr
            next hcat =>
              split at hEq
              next himg =>
                have hane : a ≠ "" := by
                  intro haeq
                  exact hgate (by simp [haeq])
                revert himg
                cases hsum : extract_image_from_summary e.summary with
                | some i => simp
                | none => simp [amazon_image_from_asin, hane]
              next img himg => exact Except.noConfusion hEq

theorem C10_no_image_skip_witness :
    ∃ s, amazon_image_from_asin "B0TESTASIN" = some s ∧ s ≠ "" :=
  C10_no_image_skip.1 "B0TESTASIN" (by decide)

/-- The entry gates read only the dedup bookkeeping, never the clock or the
accepted deals: with equal bookkeeping, a second run takes the same branch
and differs only in the timestamp written into an accepted deal. -/
theorem attemptDeal_shift (c1 c2 : Nat → Int) (s1 s2 : CurationState) (e : Entry)
    (hA : s1.seenAsins = s2.seenAsins) (hT : s1.seenTitles = s2.seenTitles)
    (hC : s1.catCounts = s2.catCounts) :
    attemptDeal c2 s2 e =
      Except.map (fun d => { d with timestamp := c2 s2.deals.length })
        (attemptDeal c1 s1 e) := by
  simp only [attemptDeal]
  rw [← hA, ← hT, ← hC]
  split <;> try rfl
  split <;> try rfl
  split <;> try rfl
  split <;> try rfl
  split <;> try rfl
  split <;> rfl

theorem processEntry_rel (t1 t2 : Int) (s1 s2 : CurationState) (e : Entry)
    (h : StateRel t1 t2 s1 s2) :
    StateRel t1 t2 (processEntry (fun _ => t1) s1 e)
      (processEntry (fun _ => t2) s2 e) := by
  obtain ⟨hd, hA, hT, hC⟩ := h
  have hshift := attemptDeal_shift (fun _ => t1) (fun _ => t2) s1 s2 e hA hT hC
  cases hres : attemptDeal (fun _ => t1) s1 e with
  | error r =>
    have h2 : attemptDeal (fun _ => t2) s2 e = .error r := by rw [hshift, hres]; rfl
    rw [processEntry_of_error hres, processEntry_of_error h2]
    exact ⟨hd, hA, hT, hC⟩
  | ok d =>
    have h2 : attemptDeal (fun _ => t2) s2 e = .ok { d with timestamp := t2 } := by
      rw [hshift, hres]; rfl
    rw [processEntry_of_ok hres, processEntry_of_ok h2]
    have hts1 : d.timestamp = t1 := (attemptDeal_ok_facts _ _ _ _ hres).2.2.2.1
    refine ⟨?_, ?_, ?_, ?_⟩
    · exact List.rel_append hd (List.Forall₂.cons ⟨rfl, hts1, rfl⟩ List.Forall₂.nil)
    · simp [acceptDeal, hA]
    · simp [acceptDeal, hT]
    · funext c
      simp [acceptDeal, congrFun hC c]

theorem processEntries_rel (t1 t2 : Int) (es : List Entry) :
    ∀ s1 s2, StateRel t1 t2 s1 s2 →
      StateRel t1 t2 (processEntries (fun _ => t1) s1 es)
        (processEntries (fun _ => t2) s2 es) := by
  induction es with
  | nil => exact fun s1 s2 h => h
  | cons e es ih =>
    intro s1 s2 h
    have h' := processEntry_rel t1 t2 s1 s2 e h
    have hlen : (processEntry (fun _ => t1) s1 e).deals.length =
        (processEntry (fun _ => t2) s2 e).deals.length := h'.1.length_eq
    simp only [processEntries]
    by_cases hge : (processEntry (fun _ => t1) s1 e).deals.length ≥ MAX_DEALS
    · rw [if_pos hge, if_pos (hlen ▸ hge)]
      exact h'
    · rw [if_neg hge, if_neg (by rw [← hlen]; exact hge)]
      exact ih _ _ h'

theorem processFeeds_rel (t1 t2 : Int) (feeds : List (List Entry)) :
    ∀ s1 s2, StateRel t1 t2 s1 s2 →
      StateRel t1 t2 (processFeeds (fun _ => t1) s1 feeds)
        (processFeeds (fun _ => t2) s2 feeds) := by
  induction feeds with
  | nil => exact fun s1 s2 h => h
  | cons f fs ih =>
    intro s1 s2 h
    have hlen : s1.deals.length = s2.deals.length := h.1.length_eq
    simp only [processFeeds]
    by_cases hge : s1.deals.length ≥ MAX_DEALS
    · rw [if_pos hge, if_pos (hlen ▸ hge)]
      exact h
    · rw [if_neg hge, if_neg (by rw [← hlen]; exact hge)]
      exact ih _ _ (processEntries_rel t1 t2 f s1 s2 h)

/-- Within a constant-clock run every key-tie on score is also a key-tie on
timestamp, so the stable sorts of the two runs move related deals alike. -/
theorem orderedInsert_rel (t1 t2 : Int) (d d' : Deal) (hp : TsPair t1 t2 d d') :
    ∀ l1 l2, List.Forall₂ (TsPair t1 t2) l1 l2 →
      List.Forall₂ (TsPair t1 t2) (List.orderedInsert dealOrder d l1)
        (List.orderedInsert dealOrder d' l2) := by
  intro l1 l2 h
  induction h with
  | nil => exact .cons hp .nil
  | @cons b1 b2 m1 m2 hb hrest ih =>
    have hsd : d.score = d'.score := by
      simpa [dealData] using congrArg Deal.score hp.1
    have hsb : b1.score = b2.score := by
      simpa [dealData] using congrArg Deal.score hb.1
    have hiff : dealOrder d b1 ↔ dealOrder d' b2 := by
      unfold dealOrder
      rw [hsd, hsb, hp.2.1, hp.2.2, hb.2.1, hb.2.2]
      simp
    by_cases hdb : dealOrder d b1
    · rw [List.orderedInsert, List.orderedInsert, if_pos hdb, if_pos (hiff.mp hdb)]
      exact .cons hp (.cons hb hrest)
    · rw [List.orderedInsert, List.orderedInsert, if_neg hdb,
        if_neg (fun hh => hdb (hiff.mpr hh))]
      exact .cons hb ih

theorem insertionSort_rel (t1 t2 : Int) :
    ∀ l1 l2, List.Forall₂ (TsPair t1 t2) l1 l2 →
      List.Forall₂ (TsPair t1 t2) (List.insertionSort dealOrder l1)
        (List.insertionSort dealOrder l2) := by
  intro l1 l2 h
  induction h with
  | nil => exact .nil
  | cons hp h ih =>
    simp only [List.insertionSort]
    exact orderedInsert_rel t1 t2 _ _ hp _ _ ih

theorem map_dealData_eq (t1 t2 : Int) :
    ∀ l1 l2, List.Forall₂ (TsPair t1 t2) l1 l2 →
      l1.map dealData = l2.map dealData := by
  intro l1 l2 h
  induction h with
  | nil => rfl
  | cons hp h ih => simp only [List.map_cons, hp.1, ih]

set_option maxRecDepth 200000 in
/-- Claim C4 counterexample: the output is not a function of the entries alone.
One entry, two runs whose clock reads 0 and 1 respectively: the outputs differ
(in the timestamp field), so runs at different wall-clock times are not
byte-identical. -/
theorem C4_idempotence_cx :
    mainDeals (fun _ => 0) [[entryPlain]] ≠ mainDeals (fun _ => 1) [[entryPlain]] := by
  decide

/-! Query-string round-trip lemmas for claim C9. -/

theorem strToList_mk (l : List Char) : (String.mk l).toList = l := rfl

theorem strMk_toList (s : String) : String.mk s.toList = s := by
  cases s
  rfl

theorem strToList_ne_nil {s : String} (h : s ≠ "") : s.toList ≠ [] := by
  intro hc
  apply h
  have := congrArg String.mk hc
  rwa [strMk_toList] at this

theorem splitAtFirst_none_of_not_mem {sep : Char} :
    ∀ {l : List Char}, sep ∉ l → splitAtFirst sep l = none := by
  intro l
  induction l with
  | nil => intro _; rfl
  | cons c cs ih =>
    intro h
    have hc : ¬(c == sep) = true := by
      simp only [beq_iff_eq]
      intro hc
      exact h (hc ▸ List.mem_cons_self c cs)
    simp only [splitAtFirst, if_neg hc, ih (fun hm => h (List.mem_cons_of_mem c hm))]

theorem splitAtFirst_append {sep : Char} :
    ∀ {a : List Char}, sep ∉ a → ∀ b, splitAtFirst sep (a ++ sep :: b) = some (a, b) := by
  intro a
  induction a with
  | nil => intro _ b; simp [splitAtFirst]
  | cons c cs ih =>
    intro h b
    have hc : ¬(c == sep) = true := by
      simp only [beq_iff_eq]
      intro hc
      exact h (hc ▸ List.mem_cons_self c cs)
    simp only [List.cons_append, splitAtFirst, if_neg hc, List.append_eq,
      ih (fun hm => h (List.mem_cons_of_mem c hm)) b]

theorem splitAtFirst_eq_some {sep : Char} :
    ∀ {l a b : List Char}, splitAtFirst sep l = some (a, b) →
      l = a ++ sep :: b ∧ sep ∉ a := by
  intro l
  induction l with
  | nil => intro a b h; exact Option.noConfusion h
  | cons c cs ih =>
    intro a b h
    by_cases hc : (c == sep) = true
    · rw [splitAtFirst, if_pos hc] at h
      rw [beq_iff_eq] at hc
      injection h with h
      rw [Prod.mk.injEq] at h
      obtain ⟨ha, hb⟩ := h
      subst ha hb hc
      exact ⟨rfl, List.not_mem_nil _⟩
    · rw [splitAtFirst, if_neg hc] at h
      cases hin : splitAtFirst sep cs with
      | none => rw [hin] at h; exact Option.noConfusion h
      | some ab =>
        rw [hin] at h
        injection h with h
        rw [Prod.mk.injEq] at h
        obtain ⟨ha, hb⟩ := h
        obtain ⟨hcs, hnotmem⟩ := ih hin
        subst ha hb
        constructor
        · rw [hcs]; rfl
        · intro hm
          rcases List.mem_cons.mp hm with hm | hm
          · rw [beq_iff_eq] at hc; exact hc hm.symm
          · exact hnotmem hm

theorem splitAmp_ne_nil : ∀ l : List Char, splitAmp l ≠ [] := by
  intro l
  induction l with
  | nil => simp [splitAmp]
  | cons c cs ih =>
    simp only [splitAmp]
    split
    · simp
    · split
      · simp
      · simp

theorem splitAmp_no_amp : ∀ (l : List Char), ∀ p ∈ splitAmp l, '&' ∉ p := by
  intro l
  induction l with
  | nil =>
    intro p hp
    simp only [splitAmp, List.mem_singleton] at hp
    subst hp
    exact List.not_mem_nil _
  | cons c cs ih =>
    intro p hp
    simp only [splitAmp] at hp
    by_cases hc : (c == '&') = true
    · rw [if_pos hc] at hp
      rcases List.mem_cons.mp hp with hp | hp
      · subst hp; exact List.not_mem_nil _
      · exact ih p hp
    · rw [if_neg hc] at hp
      cases hr : splitAmp cs with
      | nil => exact absurd hr (splitAmp_ne_nil cs)
      | cons h t =>
        rw [hr] at hp
        rcases List.mem_cons.mp hp with hp | hp
        · subst hp
          intro hm
          rcases List.mem_cons.mp hm with hm | hm
          · rw [beq_iff_eq] at hc; exact hc hm.symm
          · exact ih h (hr ▸ List.mem_cons_self h t) hm
        · exact ih p (hr ▸ List.mem_cons_of_mem h hp)

theorem splitAmp_chars : ∀ (l : List Char), ∀ p ∈ splitAmp l, ∀ c ∈ p, c ∈ l := by
  intro l
  induction l with
  | nil =>
    intro p hp c hc
    simp only [splitAmp, List.mem_singleton] at hp
    subst hp
    exact absurd hc (List.not_mem_nil _)
  | cons d cs ih =>
    intro p hp c hc
    simp only [splitAmp] at hp
    by_cases hd : (d == '&') = true
    · rw [if_pos hd] at hp
      rcases List.mem_cons.mp hp with hp | hp
      · subst hp; exact absurd hc (List.not_mem_nil _)
      · exact List.mem_cons_of_mem d (ih p hp c hc)
    · rw [if_neg hd] at hp
      cases hr : splitAmp cs with
      | nil => exact absurd hr (splitAmp_ne_nil cs)
      | cons h t =>
        rw [hr] at hp
        rcases List.mem_cons.mp hp with hp | hp
        · subst hp
          rcases List.mem_cons.mp hc with hc | hc
          · subst hc; exact List.mem_cons_self _ _
          · exact List.mem_cons_of_mem d
              (ih h (hr ▸ List.mem_cons_self h t) c hc)
        · exact List.mem_cons_of_mem d
            (ih p (hr ▸ List.mem_cons_of_mem h hp) c hc)

theorem splitAmp_append {p : List Char} (hp : '&' ∉ p) :
    ∀ r, splitAmp (p ++ '&' :: r) = p :: splitAmp r := by
  induction p with
  | nil => intro r; simp [splitAmp]
  | cons c cs ih =>
    intro r
    have hc : ¬(c == '&') = true := by
      simp only [beq_iff_eq]
      intro hc
      exact hp (hc ▸ List.mem_cons_self c cs)
    have ihr := ih (fun hm => hp (List.mem_cons_of_mem c hm)) r
    simp only [List.cons_append, splitAmp, if_neg hc, List.append_eq, ihr]

theorem splitAmp_singleton {p : List Char} (hp : '&' ∉ p) : splitAmp p = [p] := by
  induction p with
  | nil => rfl
  | cons c cs ih =>
    have hc : ¬(c == '&') = true := by
      simp only [beq_iff_eq]
      intro hc
      exact hp (hc ▸ List.mem_cons_self c cs)
    have ihr := ih (fun hm => hp (List.mem_cons_of_mem c hm))
    simp only [splitAmp, if_neg hc, ihr]

theorem splitAmp_joinAmp :
    ∀ parts : List (List Char), parts ≠ [] → (∀ p ∈ parts, '&' ∉ p) →
      splitAmp (joinAmp parts) = parts := by
  intro parts
  induction parts with
  | nil => intro h; exact absurd rfl h
  | cons p rest ih =>
    intro _ hfree
    cases rest with
    | nil =>
      simp only [joinAmp]
      exact splitAmp_singleton (hfree p (List.mem_cons_self p []))
    | cons p2 rest2 =>
      simp only [joinAmp]
      rw [splitAmp_append (hfree p (List.mem_cons_self _ _))]
      rw [ih (by simp) (fun x hx => hfree x (List.mem_cons_of_mem p hx))]

theorem joinAmp_chars :
    ∀ parts : List (List Char), ∀ c ∈ joinAmp parts,
      c = '&' ∨ ∃ p ∈ parts, c ∈ p := by
  intro parts
  induction parts with
  | nil => intro c hc; exact absurd hc (List.not_mem_nil _)
  | cons p rest ih =>
    intro c hc
    cases rest with
    | nil =>
      right
      exact ⟨p, List.mem_cons_self _ _, hc⟩
    | cons p2 rest2 =>
      simp only [joinAmp] at hc
      rcases List.mem_append.mp hc with hc | hc
      · right; exact ⟨p, List.mem_cons_self _ _, hc⟩
      · rcases List.mem_cons.mp hc with hc | hc
        · left; exact hc
        · rcases ih c hc with hc | ⟨q, hq, hcq⟩
          · left; exact hc
          · right; exact ⟨q, List.mem_cons_of_mem p hq, hcq⟩

theorem parsePiece_encode {k v : List Char} (hk : '=' ∉ k) (hv : v ≠ []) :
    parsePiece (k ++ '=' :: v) = some (String.mk k, String.mk v) := by
  unfold parsePiece
  rw [splitAtFirst_append hk v]
  cases v with
  | nil => exact absurd rfl hv
  | cons x xs => rfl

theorem addPair_fresh {acc : List (String × List String)} {k : String} {v : String}
    (h : k ∉ acc.map Prod.fst) : addPair acc (k, v) = acc ++ [(k, [v])] := by
  induction acc with
  | nil => rfl
  | cons e rest ih =>
    have he : ¬ e.1 = k := by
      intro hk
      exact h (List.mem_map.mpr ⟨e, List.mem_cons_self e rest, hk⟩)
    simp only [addPair, if_neg he, List.cons_append,
      ih (fun hm => h (by rw [List.map_cons]; exact List.mem_cons_of_mem e.1 hm))]

theorem addPair_last {k : String} {vs : List String} {v : String} :
    ∀ {acc : List (String × List String)}, k ∉ acc.map Prod.fst →
      addPair (acc ++ [(k, vs)]) (k, v) = acc ++ [(k, vs ++ [v])] := by
  intro acc
  induction acc with
  | nil => intro _; simp [addPair]
  | cons e rest ih =>
    intro h
    have he : ¬ e.1 = k := by
      intro hk
      exact h (List.mem_map.mpr ⟨e, List.mem_cons_self e rest, hk⟩)
    simp only [List.cons_append, addPair, if_neg he, List.append_eq,
      ih (fun hm => h (by rw [List.map_cons]; exact List.mem_cons_of_mem e.1 hm))]

theorem foldl_group_vals {k : String} :
    ∀ (vs' : List String) (acc : List (String × List String)) (vs : List String),
      k ∉ acc.map Prod.fst →
      List.foldl addPair (acc ++ [(k, vs)]) (vs'.map fun v => (k, v)) =
        acc ++ [(k, vs ++ vs')] := by
  intro vs'
  induction vs' with
  | nil => intro acc vs _; simp
  | cons v vs' ih =>
    intro acc vs h
    simp only [List.map_cons, List.foldl_cons, addPair_last h]
    rw [ih acc (vs ++ [v]) h, List.append_assoc]
    rfl

theorem foldl_group :
    ∀ (ps : List (String × List String)) (acc : List (String × List String)),
      (ps.map Prod.fst).Nodup →
      (∀ x ∈ ps.map Prod.fst, x ∉ acc.map Prod.fst) →
      (∀ e ∈ ps, e.2 ≠ []) →
      List.foldl addPair acc (pairsOf ps) = acc ++ ps := by
  intro ps
  induction ps with
  | nil => intro acc _ _ _; simp [pairsOf]
  | cons e rest ih =>
    intro acc hnd hdisj hne
    have hvs : e.2 ≠ [] := hne e (List.mem_cons_self _ _)
    have hkacc : e.1 ∉ acc.map Prod.fst :=
      hdisj e.1 (by rw [List.map_cons]; exact List.mem_cons_self _ _)
    simp only [pairsOf, List.flatMap_cons, List.foldl_append]
    have hstep : List.foldl addPair acc (e.2.map fun v => (e.1, v)) =
        acc ++ [(e.1, e.2)] := by
      cases hv : e.2 with
      | nil => exact absurd hv hvs
      | cons v0 vtl =>
        simp only [List.map_cons, List.foldl_cons, addPair_fresh hkacc]
        exact foldl_group_vals vtl acc [v0] hkacc
    rw [hstep]
    have hnd2 : (List.map Prod.fst (e :: rest)).Nodup := hnd
    rw [List.map_cons] at hnd2
    have hnd' : (rest.map Prod.fst).Nodup := (List.nodup_cons.mp hnd2).2
    have hknotrest : e.1 ∉ rest.map Prod.fst := (List.nodup_cons.mp hnd2).1
    have hdisj' : ∀ x ∈ rest.map Prod.fst,
        x ∉ (acc ++ [(e.1, e.2)]).map Prod.fst := by
      intro x hx
      rw [List.map_append, List.map_cons, List.map_nil]
      intro hmem
      rcases List.mem_append.mp hmem with hmem | hmem
      · exact hdisj x (by rw [List.map_cons]; exact List.mem_cons_of_mem _ hx) hmem
      · rw [List.mem_singleton] at hmem
        exact hknotrest (hmem ▸ hx)
    have ihe := ih (acc ++ [(e.1, e.2)]) hnd' hdisj'
      (fun x hx => hne x (List.mem_cons_of_mem e hx))
    rw [show (rest.flatMap fun x => x.2.map fun v => (x.1, v)) =
        pairsOf rest from rfl]
    rw [ihe, List.append_assoc]
    rfl

theorem filterMap_parsePiece_group {k : String} (hk : '=' ∉ k.toList) :
    ∀ vs : List String, (∀ v ∈ vs, v ≠ "") →
      ((vs.map fun v => k.toList ++ '=' :: v.toList).filterMap parsePiece) =
        vs.map fun v => (k, v) := by
  intro vs
  induction vs with
  | nil => intro _; rfl
  | cons v vtl ih =>
    intro hv
    have hp : parsePiece (k.toList ++ '=' :: v.toList) = some (k, v) := by
      rw [parsePiece_encode hk (strToList_ne_nil (hv v (List.mem_cons_self _ _)))]
      rw [strMk_toList, strMk_toList]
    simp only [List.map_cons, List.filterMap_cons, hp]
    rw [ih (fun w hw => hv w (List.mem_cons_of_mem v hw))]

theorem filterMap_parsePiece_pieces :
    ∀ ps : List (String × List String),
      (∀ e ∈ ps, '=' ∉ e.1.toList ∧ ∀ v ∈ e.2, v ≠ "") →
      ((ps.flatMap fun e => e.2.map fun v =>
        e.1.toList ++ '=' :: v.toList).filterMap parsePiece) = pairsOf ps := by
  intro ps
  induction ps with
  | nil => intro _; rfl
  | cons e rest ih =>
    intro h
    simp only [pairsOf, List.flatMap_cons, List.filterMap_append]
    rw [filterMap_parsePiece_group (h e (List.mem_cons_self _ _)).1 e.2
      (h e (List.mem_cons_self _ _)).2]
    rw [show (rest.flatMap fun e => e.2.map fun v =>
      (e.1, v)) = pairsOf rest from rfl]
    rw [← ih (fun x hx => h x (List.mem_cons_of_mem e hx))]

/-- Re-parsing the encoding of a well-formed grouped query yields it back. -/
theorem parse_encode (ps : List (String × List String)) (hWF : QsWF ps)
    (hne : ps ≠ []) : parseQsL (encodeQs ps) = ps := by
  obtain ⟨hnd, hent⟩ := hWF
  have hpieces : ∀ p ∈ (ps.flatMap fun e => e.2.map fun v =>
      e.1.toList ++ '=' :: v.toList), '&' ∉ p := by
    intro p hp
    obtain ⟨e, he, hpe⟩ := List.mem_flatMap.mp hp
    obtain ⟨v, hv, hveq⟩ := List.mem_map.mp hpe
    subst hveq
    intro hm
    rcases List.mem_append.mp hm with hm | hm
    · exact ((hent e he).1.1) hm
    · rcases List.mem_cons.mp hm with hm | hm
      · exact absurd hm (by decide)
      · exact ((hent e he).2.2 v hv).2 hm
  have hpne : (ps.flatMap fun e => e.2.map fun v =>
      e.1.toList ++ '=' :: v.toList) ≠ [] := by
    cases ps with
    | nil => exact absurd rfl hne
    | cons e rest =>
      have hvs : e.2 ≠ [] := (hent e (List.mem_cons_self _ _)).2.1
      cases hv : e.2 with
      | nil => exact absurd hv hvs
      | cons v vtl => simp [List.flatMap_cons, hv]
  unfold parseQsL encodeQs
  rw [splitAmp_joinAmp _ hpne hpieces]
  rw [filterMap_parsePiece_pieces ps
    (fun e he => ⟨(hent e he).1.2, fun v hv => ((hent e he).2.2 v hv).1⟩)]
  rw [foldl_group ps [] hnd (by simp) (fun e he => (hent e he).2.1)]
  rfl

theorem not_mem_of_splitAtFirst_none {sep : Char} :
    ∀ {l : List Char}, splitAtFirst sep l = none → sep ∉ l := by
  intro l
  induction l with
  | nil => intro _; exact List.not_mem_nil _
  | cons c cs ih =>
    intro h
    by_cases hc : (c == sep) = true
    · rw [splitAtFirst, if_pos hc] at h; exact Option.noConfusion h
    · rw [splitAtFirst, if_neg hc] at h
      cases hin : splitAtFirst sep cs with
      | some ab => rw [hin] at h; exact Option.noConfusion h
      | none =>
        intro hm
        rcases List.mem_cons.mp hm with hm | hm
        · rw [beq_iff_eq] at hc; exact hc hm.symm
        · exact ih hin hm

theorem addPair_fst (acc : List (String × List String)) (kv : String × String) :
    (addPair acc kv).map Prod.fst =
      if kv.1 ∈ acc.map Prod.fst then acc.map Prod.fst
      else acc.map Prod.fst ++ [kv.1] := by
  induction acc with
  | nil => simp [addPair]
  | cons e rest ih =>
    by_cases he : e.1 = kv.1
    · simp only [addPair, if_pos he, List.map_cons]
      rw [if_pos (by rw [← he]; exact List.mem_cons_self _ _)]
    · simp only [addPair, if_neg he, List.map_cons, ih]
      by_cases hm : kv.1 ∈ rest.map Prod.fst
      · rw [if_pos hm, if_pos (List.mem_cons_of_mem _ hm)]
      · have hnot : kv.1 ∉ e.1 :: rest.map Prod.fst := by
          intro hmem
          rcases List.mem_cons.mp hmem with hmem | hmem
          · exact he hmem.symm
          · exact hm hmem
        rw [if_neg hm, if_neg hnot, List.cons_append]

theorem mem_addPair :
    ∀ {acc : List (String × List String)} {kv : String × String}
      {e : String × List String}, e ∈ addPair acc kv →
      e ∈ acc ∨ (∃ vs, e = (kv.1, vs ++ [kv.2]) ∧ (kv.1, vs) ∈ acc) ∨
        e = (kv.1, [kv.2]) := by
  intro acc
  induction acc with
  | nil =>
    intro kv e h
    simp only [addPair, List.mem_singleton] at h
    exact Or.inr (Or.inr h)
  | cons e0 rest ih =>
    intro kv e h
    simp only [addPair] at h
    by_cases h0 : e0.1 = kv.1
    · rw [if_pos h0] at h
      rcases List.mem_cons.mp h with h | h
      · refine Or.inr (Or.inl ⟨e0.2, by rw [h, h0], ?_⟩)
        have : (kv.1, e0.2) = e0 := by
          rw [← h0]
        rw [this]
        exact List.mem_cons_self _ _
      · exact Or.inl (List.mem_cons_of_mem _ h)
    · rw [if_neg h0] at h
      rcases List.mem_cons.mp h with h | h
      · exact Or.inl (by rw [h]; exact List.mem_cons_self _ _)
      · rcases ih h with h | ⟨vs, heq, hmem⟩ | h
        · exact Or.inl (List.mem_cons_of_mem _ h)
        · exact Or.inr (Or.inl ⟨vs, heq, List.mem_cons_of_mem _ hmem⟩)
        · exact Or.inr (Or.inr h)

theorem foldl_addPair_ok (q : List Char) :
    ∀ (pl : List (String × String)) (acc : List (String × List String)),
      (∀ kv ∈ pl, QPairOK q kv) →
      (acc.map Prod.fst).Nodup → (∀ e ∈ acc, QEntryOK q e) →
      ((List.foldl addPair acc pl).map Prod.fst).Nodup ∧
        ∀ e ∈ List.foldl addPair acc pl, QEntryOK q e := by
  intro pl
  induction pl with
  | nil => intro acc _ hnd hent; exact ⟨hnd, hent⟩
  | cons kv pl ih =>
    intro acc hpl hnd hent
    simp only [List.foldl_cons]
    apply ih
    · intro kv' h; exact hpl kv' (List.mem_cons_of_mem _ h)
    · rw [addPair_fst]
      split
      · exact hnd
      · next hnot =>
        rw [List.nodup_append]
        exact ⟨hnd, List.nodup_singleton _, fun a ha hb => by
          rw [List.mem_singleton] at hb
          exact hnot (hb ▸ ha)⟩
    · intro e he
      rcases mem_addPair he with he | ⟨vs, heq, hmem⟩ | heq
      · exact hent e he
      · subst heq
        have hE := hent (kv.1, vs) hmem
        have hP := hpl kv (List.mem_cons_self _ _)
        refine ⟨hE.1, by simp, ?_⟩
        intro v hv
        rcases List.mem_append.mp hv with hv | hv
        · exact hE.2.2 v hv
        · rw [List.mem_singleton] at hv
          subst hv
          exact hP.2
      · subst heq
        have hP := hpl kv (List.mem_cons_self _ _)
        refine ⟨hP.1, by simp, ?_⟩
        intro v hv
        rw [List.mem_singleton] at hv
        subst hv
        exact hP.2

theorem parsePiece_ok {q part : List Char} (hpart : part ∈ splitAmp q)
    {kv : String × String} (h : parsePiece part = some kv) : QPairOK q kv := by
  unfold parsePiece at h
  split at h
  · exact Option.noConfusion h
  next ab hsp =>
    split at h
    · exact Option.noConfusion h
    next hemp =>
      injection h with h
      obtain ⟨hrec, hnomem⟩ := splitAtFirst_eq_some hsp
      subst h
      have hamp : '&' ∉ part := splitAmp_no_amp q part hpart
      have hchars : ∀ c ∈ part, c ∈ q := splitAmp_chars q part hpart
      constructor
      · refine ⟨?_, ?_, ?_⟩
        · rw [strToList_mk]
          intro hm
          apply hamp
          rw [hrec]
          exact List.mem_append.mpr (Or.inl hm)
        · rw [strToList_mk]; exact hnomem
        · rw [strToList_mk]
          intro c hc
          apply hchars c
          rw [hrec]
          exact List.mem_append.mpr (Or.inl hc)
      · refine ⟨?_, ?_, ?_⟩
        · intro hc
          have hnil : ab.2 = [] := by
            have := congrArg String.toList hc
            rwa [strToList_mk] at this
          rw [hnil] at hemp
          exact hemp rfl
        · rw [strToList_mk]
          intro hm
          apply hamp
          rw [hrec]
          exact List.mem_append.mpr (Or.inr (List.mem_cons_of_mem _ hm))
        · rw [strToList_mk]
          intro c hc
          apply hchars c
          rw [hrec]
          exact List.mem_append.mpr (Or.inr (List.mem_cons_of_mem _ hc))

theorem parseQsL_ok (q : List Char) :
    ((parseQsL q).map Prod.fst).Nodup ∧ ∀ e ∈ parseQsL q, QEntryOK q e := by
  unfold parseQsL
  apply foldl_addPair_ok
  · intro kv hkv
    obtain ⟨part, hpart, hp⟩ := List.mem_filterMap.mp hkv
    exact parsePiece_ok hpart hp
  · exact List.nodup_nil
  · intro e he; exact absurd he (List.not_mem_nil _)

theorem qsWF_parseQsL (q : List Char) : QsWF (parseQsL q) := by
  obtain ⟨hnd, hent⟩ := parseQsL_ok q
  exact ⟨hnd, fun e he =>
    ⟨⟨(hent e he).1.1, (hent e he).1.2.1⟩, (hent e he).2.1,
      fun v hv => ⟨((hent e he).2.2 v hv).1, ((hent e he).2.2 v hv).2.1⟩⟩⟩

theorem setTag_ne_nil (ps : List (String × List String)) : setTag ps ≠ [] := by
  cases ps with
  | nil => simp [setTag]
  | cons e rest =>
    simp only [setTag]
    split <;> simp

theorem setTag_fst (ps : List (String × List String)) :
    (setTag ps).map Prod.fst =
      if "tag" ∈ ps.map Prod.fst then ps.map Prod.fst
      else ps.map Prod.fst ++ ["tag"] := by
  induction ps with
  | nil => simp [setTag]
  | cons e rest ih =>
    by_cases he : e.1 = "tag"
    · simp only [setTag, if_pos he, List.map_cons]
      rw [if_pos (by rw [← he]; exact List.mem_cons_self _ _), he]
    · simp only [setTag, if_neg he, List.map_cons, ih]
      by_cases hm : "tag" ∈ rest.map Prod.fst
      · rw [if_pos hm, if_pos (List.mem_cons_of_mem _ hm)]
      · have hnot : "tag" ∉ e.1 :: rest.map Prod.fst := by
          intro hmem
          rcases List.mem_cons.mp hmem with hmem | hmem
          · exact he hmem.symm
          · exact hm hmem
        rw [if_neg hm, if_neg hnot, List.cons_append]

theorem mem_setTag {ps : List (String × List String)} {e : String × List String}
    (h : e ∈ setTag ps) : e = ("tag", [AFFILIATE_TAG]) ∨ e ∈ ps := by
  induction ps with
  | nil =>
    simp only [setTag, List.mem_singleton] at h
    exact Or.inl h
  | cons e0 rest ih =>
    simp only [setTag] at h
    by_cases h0 : e0.1 = "tag"
    · rw [if_pos h0] at h
      rcases List.mem_cons.mp h with h | h
      · exact Or.inl h
      · exact Or.inr (List.mem_cons_of_mem _ h)
    · rw [if_neg h0] at h
      rcases List.mem_cons.mp h with h | h
      · exact Or.inr (by rw [h]; exact List.mem_cons_self _ _)
      · rcases ih h with h | h
        · exact Or.inl h
        · exact Or.inr (List.mem_cons_of_mem _ h)

theorem mem_setTag_of_mem {ps : List (String × List String)}
    {e : String × List String} (he : e ∈ ps) (hk : e.1 ≠ "tag") :
    e ∈ setTag ps := by
  induction ps with
  | nil => exact absurd he (List.not_mem_nil _)
  | cons e0 rest ih =>
    simp only [setTag]
    by_cases h0 : e0.1 = "tag"
    · rw [if_pos h0]
      rcases List.mem_cons.mp he with he | he
      · exact absurd (by rw [he]; exact h0) hk
      · exact List.mem_cons_of_mem _ he
    · rw [if_neg h0]
      rcases List.mem_cons.mp he with he | he
      · rw [he]; exact List.mem_cons_self _ _
      · exact List.mem_cons_of_mem _ (ih he)

theorem setTag_mem_tag : ∀ ps : List (String × List String),
    ("tag", [AFFILIATE_TAG]) ∈ setTag ps := by
  intro ps
  induction ps with
  | nil => exact List.mem_singleton.mpr rfl
  | cons e rest ih =>
    simp only [setTag]
    by_cases h0 : e.1 = "tag"
    · rw [if_pos h0]; exact List.mem_cons_self _ _
    · rw [if_neg h0]; exact List.mem_cons_of_mem _ ih

theorem setTag_tag_unique :
    ∀ ps : List (String × List String), (ps.map Prod.fst).Nodup →
      ∀ vs, ("tag", vs) ∈ setTag ps → vs = [AFFILIATE_TAG] := by
  intro ps
  induction ps with
  | nil =>
    intro _ vs h
    simp only [setTag, List.mem_singleton] at h
    exact congrArg Prod.snd h
  | cons e rest ih =>
    intro hnd vs h
    rw [List.map_cons] at hnd
    simp only [setTag] at h
    by_cases h0 : e.1 = "tag"
    · rw [if_pos h0] at h
      rcases List.mem_cons.mp h with h | h
      · exact congrArg Prod.snd h
      · exfalso
        apply (List.nodup_cons.mp hnd).1
        rw [h0]
        exact List.mem_map.mpr ⟨("tag", vs), h, rfl⟩
    · rw [if_neg h0] at h
      rcases List.mem_cons.mp h with h | h
      · exact absurd (congrArg Prod.fst h).symm h0
      · exact ih (List.nodup_cons.mp hnd).2 vs h

theorem qsWF_setTag {ps : List (String × List String)} (h : QsWF ps) :
    QsWF (setTag ps) := by
  obtain ⟨hnd, hent⟩ := h
  constructor
  · rw [setTag_fst]
    split
    · exact hnd
    · next hnot =>
      rw [List.nodup_append]
      exact ⟨hnd, List.nodup_singleton _, fun a ha hb => by
        rw [List.mem_singleton] at hb
        exact hnot (hb ▸ ha)⟩
  · intro e he
    rcases mem_setTag he with he | he
    · subst he
      refine ⟨⟨by decide, by decide⟩, by simp, ?_⟩
      intro v hv
      rw [List.mem_singleton] at hv
      subst hv
      exact ⟨by decide, by decide⟩
    · exact hent e he

theorem mem_encodeQs {ps : List (String × List String)} {c : Char}
    (h : c ∈ encodeQs ps) :
    c = '&' ∨ c = '=' ∨ ∃ e ∈ ps, c ∈ e.1.toList ∨ ∃ v ∈ e.2, c ∈ v.toList := by
  unfold encodeQs at h
  rcases joinAmp_chars _ c h with h | ⟨p, hp, hcp⟩
  · exact Or.inl h
  · obtain ⟨e, he, hpe⟩ := List.mem_flatMap.mp hp
    obtain ⟨v, hv, hveq⟩ := List.mem_map.mp hpe
    subst hveq
    rcases List.mem_append.mp hcp with hc | hc
    · exact Or.inr (Or.inr ⟨e, he, Or.inl hc⟩)
    · rcases List.mem_cons.mp hc with hc | hc
      · exact Or.inr (Or.inl hc)
      · exact Or.inr (Or.inr ⟨e, he, Or.inr ⟨v, hv, hc⟩⟩)

theorem mem_pairsOf {ps : List (String × List String)} {k v : String} :
    (k, v) ∈ pairsOf ps ↔ ∃ vs, (k, vs) ∈ ps ∧ v ∈ vs := by
  constructor
  · intro h
    obtain ⟨e, he, hpe⟩ := List.mem_flatMap.mp h
    obtain ⟨w, hw, hweq⟩ := List.mem_map.mp hpe
    rw [Prod.mk.injEq] at hweq
    obtain ⟨hk, hv⟩ := hweq
    refine ⟨e.2, ?_, hv ▸ hw⟩
    rw [← hk]
    exact he
  · intro ⟨vs, hmem, hv⟩
    exact List.mem_flatMap.mpr ⟨(k, vs), hmem, List.mem_map.mpr ⟨v, hv, rfl⟩⟩

theorem splitUrl_facts (u : String) :
    '#' ∉ (splitUrl u).1 ∧ '?' ∉ (splitUrl u).1 ∧ '#' ∉ (splitUrl u).2.1 := by
  simp only [splitUrl]
  cases h1 : splitAtFirst '#' u.toList with
  | none =>
    have hq := not_mem_of_splitAtFirst_none h1
    cases h2 : splitAtFirst '?' u.toList with
    | none => exact ⟨hq, not_mem_of_splitAtFirst_none h2, List.not_mem_nil _⟩
    | some ab =>
      obtain ⟨hrec, hnm⟩ := splitAtFirst_eq_some h2
      refine ⟨?_, hnm, ?_⟩
      · intro hm
        apply hq
        rw [hrec]
        exact List.mem_append.mpr (Or.inl hm)
      · intro hm
        apply hq
        rw [hrec]
        exact List.mem_append.mpr (Or.inr (List.mem_cons_of_mem _ hm))
  | some ab1 =>
    obtain ⟨hrec1, hnm1⟩ := splitAtFirst_eq_some h1
    cases h2 : splitAtFirst '?' ab1.1 with
    | none => exact ⟨hnm1, not_mem_of_splitAtFirst_none h2, List.not_mem_nil _⟩
    | some ab =>
      obtain ⟨hrec2, hnm2⟩ := splitAtFirst_eq_some h2
      refine ⟨?_, hnm2, ?_⟩
      · intro hm
        apply hnm1
        rw [hrec2]
        exact List.mem_append.mpr (Or.inl hm)
      · intro hm
        apply hnm1
        rw [hrec2]
        exact List.mem_append.mpr (Or.inr (List.mem_cons_of_mem _ hm))

/-- Splitting the rebuilt URL recovers its three components. -/
theorem splitUrl_rebuild (B newQ : List Char) (frag : Option (List Char))
    (hBh : '#' ∉ B) (hBq : '?' ∉ B) (hQh : '#' ∉ newQ) :
    splitUrl (String.mk (B ++ '?' :: newQ ++
      (match frag with | some f => '#' :: f | none => []))) =
      (B, newQ, frag) := by
  simp only [splitUrl, strToList_mk]
  cases frag with
  | none =>
    simp only [List.append_nil]
    have h1 : splitAtFirst '#' (B ++ '?' :: newQ) = none := by
      apply splitAtFirst_none_of_not_mem
      intro hm
      rcases List.mem_append.mp hm with hm | hm
      · exact hBh hm
      · rcases List.mem_cons.mp hm with hm | hm
        · exact absurd hm (by decide)
        · exact hQh hm
    simp only [h1, splitAtFirst_append hBq newQ]
  | some f =>
    have h1 : splitAtFirst '#' ((B ++ '?' :: newQ) ++ '#' :: f) =
        some (B ++ '?' :: newQ, f) := by
      apply splitAtFirst_append
      intro hm
      rcases List.mem_append.mp hm with hm | hm
      · exact hBh hm
      · rcases List.mem_cons.mp hm with hm | hm
        · exact absurd hm (by decide)
        · exact hQh hm
    simp only [h1, splitAtFirst_append hBq newQ]

/-- The tagged URL splits into the original pre-query part, the re-encoded
tag-updated parameter mapping as its query, and the original fragment. -/
theorem splitUrl_add_affiliate_tag (u : String) :
    splitUrl (add_affiliate_tag u) =
      ((splitUrl u).1, encodeQs (setTag (parseQsL (splitUrl u).2.1)),
        (splitUrl u).2.2) := by
  obtain ⟨hbh, hbq, hqh⟩ := splitUrl_facts u
  have hnewQh : '#' ∉ encodeQs (setTag (parseQsL (splitUrl u).2.1)) := by
    intro hm
    rcases mem_encodeQs hm with h | h | ⟨e, he, hin⟩
    · exact absurd h (by decide)
    · exact absurd h (by decide)
    · rcases mem_setTag he with he | he
      · subst he
        rcases hin with hin | ⟨v, hv, hin⟩
        · exact absurd hin (by decide)
        · rw [List.mem_singleton] at hv
          subst hv
          exact absurd hin (by decide)
      · have hE := (parseQsL_ok (splitUrl u).2.1).2 e he
        rcases hin with hin | ⟨v, hv, hin⟩
        · exact hqh (hE.1.2.2 '#' hin)
        · exact hqh ((hE.2.2 v hv).2.2 '#' hin)
  simp only [add_affiliate_tag]
  exact splitUrl_rebuild (splitUrl u).1 _ (splitUrl u).2.2 hbh hbq hnewQh

/-- Claim C9 counterexample: a product URL that already carries a `tag`
parameter has it replaced, not preserved: `tag=partner-21` is present on the
input and absent from the output. -/
theorem C9_affiliate_cx :
    ("tag", "partner-21") ∈ qsPairs taggedUrl ∧
    ("tag", "partner-21") ∉ qsPairs (add_affiliate_tag taggedUrl) :=
  ⟨by decide, by decide⟩

/-- Claim C9 (amended): the output url is the product URL with only its query
changed — the pre-query part and the fragment are preserved and the new query
is the re-encoded tag-updated parameter mapping; every `(key, value)` query
pair whose key is not the affiliate parameter `tag` is preserved; the
curator's `tag=syncflow-20` is always present in the output; and it is the
only `tag` value there, so an existing `tag` is overwritten with the
curator's tag rather than preserved. -/
theorem C9_affiliate_amended :
    (∀ u : String, splitUrl (add_affiliate_tag u) =
      ((splitUrl u).1, encodeQs (setTag (parseQsL (splitUrl u).2.1)),
        (splitUrl u).2.2)) ∧
    (∀ (u k v : String), k ≠ "tag" → (k, v) ∈ qsPairs u →
      (k, v) ∈ qsPairs (add_affiliate_tag u)) ∧
    (∀ u : String, ("tag", AFFILIATE_TAG) ∈ qsPairs (add_affiliate_tag u)) ∧
    (∀ (u v : String), ("tag", v) ∈ qsPairs (add_affiliate_tag u) →
      v = AFFILIATE_TAG) := by
  have hq : ∀ u : String, qsPairs (add_affiliate_tag u) =
      pairsOf (setTag (parseQsL (splitUrl u).2.1)) := by
    intro u
    unfold qsPairs
    rw [splitUrl_add_affiliate_tag u]
    show pairsOf (parseQsL (encodeQs (setTag (parseQsL (splitUrl u).2.1)))) = _
    rw [parse_encode _ (qsWF_setTag (qsWF_parseQsL _)) (setTag_ne_nil _)]
  refine ⟨fun u => splitUrl_add_affiliate_tag u, ?_, ?_, ?_⟩
  · intro u k v hk h
    obtain ⟨vs, hmem, hv⟩ := mem_pairsOf.mp h
    rw [hq u]
    exact mem_pairsOf.mpr ⟨vs, mem_setTag_of_mem hmem hk, hv⟩
  · intro u
    rw [hq u]
    exact mem_pairsOf.mpr
      ⟨[AFFILIATE_TAG], setTag_mem_tag _, List.mem_singleton.mpr rfl⟩
  · intro u v h
    rw [hq u] at h
    obtain ⟨vs, hmem, hv⟩ := mem_pairsOf.mp h
    rw [setTag_tag_unique _ (qsWF_parseQsL (splitUrl u).2.1).1 vs hmem] at hv
    exact List.mem_singleton.mp hv

/-- Witness for C9 (amended) at a URL that carries a foreign tag: the non-tag
pair survives and the curator's tag is present in the output. -/
theorem C9_affiliate_amended_witness :
    ("x", "1") ∈ qsPairs (add_affiliate_tag taggedUrl) ∧
    ("tag", AFFILIATE_TAG) ∈ qsPairs (add_affiliate_tag taggedUrl) :=
  ⟨C9_affiliate_amended.2.1 taggedUrl "x" "1" (by decide) (by decide),
    C9_affiliate_amended.2.2.1 taggedUrl⟩

/-- Claim C4 (amended): running the curator twice on the same fixed input
sequence yields outputs that are byte-identical in every field except the
creation timestamp, provided each run reads a constant clock; every curation
decision and the final ranking are unaffected by the clock value. -/
theorem C4_deterministic_up_to_timestamp (feeds : List (List Entry)) (t1 t2 : Int) :
    (mainDeals (fun _ => t1) feeds).map dealData =
      (mainDeals (fun _ => t2) feeds).map dealData := by
  have hrel : StateRel t1 t2 (processFeeds (fun _ => t1) initState feeds)
      (processFeeds (fun _ => t2) initState feeds) :=
    processFeeds_rel t1 t2 feeds initState initState ⟨List.Forall₂.nil, rfl, rfl, rfl⟩
  exact map_dealData_eq t1 t2 _ _ (insertionSort_rel t1 t2 _ _ hrel.1)

end SyncFlow
